import Mathlib

/-!
Verification of the memory and context-management subsystem of the
femtobot/lightclaw chat assistant.

The Rust source is shallowly embedded: SQLite tables become lists of row
records, `f32`/`f64` arithmetic becomes exact rational arithmetic over ℚ,
Rust strings become `List Char` (byte = character for the ASCII inputs the
model ranges over), `Utc::now()` timestamps become a ℕ parameter, UUIDs
become an explicit fresh-id parameter, and the external embedding and
summarization capabilities become explicit function/outcome parameters.
Fallible operations return `Except String`.

Modelled files:
  * src/memory/smart/vector_store.rs (vector memory store, embedding cache)
  * src/memory/simple/file_store.rs  (sectioned markdown store, truncate)
  * src/agent/mod.rs                 (history handling, summary ingestion,
                                      session namespaces)
-/

/-- Rust `f64::clamp(lo, hi)` over exact rationals. -/
def clampQ (x lo hi : ℚ) : ℚ := min (max x lo) hi

/-- Rust `str::trim` modelled on character lists (ASCII whitespace). -/
def trimChars (l : List Char) : List Char :=
  ((l.dropWhile Char.isWhitespace).reverse.dropWhile Char.isWhitespace).reverse

/-- Whether `sub` occurs in `l` starting at index `i`. -/
def occursAt (l sub : List Char) (i : ℕ) : Bool := sub.isPrefixOf (l.drop i)

/-- Rust `str::find` for a substring pattern: index of the first occurrence. -/
def findSub (l sub : List Char) : Option ℕ :=
  ((List.range (l.length + 1)).filter (occursAt l sub)).head?

/-- Rust `str::rfind` for a substring pattern: index of the last occurrence. -/
def rfindSub (l sub : List Char) : Option ℕ :=
  ((List.range (l.length + 1)).filter (occursAt l sub)).getLast?

/-- Insert `x` into `l` after every leading element `y` with `le y x`
(the insertion step of a stable insertion sort). -/
def insertLe {α : Type} (le : α → α → Bool) (x : α) : List α → List α
  | [] => [x]
  | y :: ys => if le y x then y :: insertLe le x ys else x :: y :: ys

/-- Stable insertion sort; models Rust's stable `sort_by` /
SQLite `ORDER BY` with a deterministic tie-break. -/
def sortByLe {α : Type} (le : α → α → Bool) : List α → List α
  | [] => []
  | x :: xs => insertLe le x (sortByLe le xs)

theorem insertLe_perm {α : Type} (le : α → α → Bool) (x : α) (l : List α) :
    (insertLe le x l).Perm (x :: l) := by
  induction l with
  | nil => simp [insertLe]
  | cons y ys ih =>
    by_cases h : le y x = true
    · simp only [insertLe, h, if_true]
      exact (ih.cons y).trans (List.Perm.swap x y ys)
    · simp [insertLe, h]

theorem sortByLe_perm {α : Type} (le : α → α → Bool) (l : List α) :
    (sortByLe le l).Perm l := by
  induction l with
  | nil => simp [sortByLe]
  | cons x xs ih =>
    exact (insertLe_perm le x (sortByLe le xs)).trans (ih.cons x)

theorem insertLe_pairwise {α : Type} (le : α → α → Bool)
    (htotal : ∀ a b, le a b = true ∨ le b a = true)
    (htrans : ∀ a b c, le a b = true → le b c = true → le a c = true)
    (x : α) (l : List α) (hl : l.Pairwise (fun a b => le a b = true)) :
    (insertLe le x l).Pairwise (fun a b => le a b = true) := by
  induction l with
  | nil => simp [insertLe]
  | cons y ys ih =>
    obtain ⟨hy, hys⟩ := List.pairwise_cons.mp hl
    by_cases h : le y x = true
    · rw [insertLe, if_pos h]
      refine List.Pairwise.cons ?_ (ih hys)
      intro z hz
      have hz' : z ∈ x :: ys := (insertLe_perm le x ys).mem_iff.mp hz
      rcases List.mem_cons.mp hz' with rfl | hz''
      · exact h
      · exact hy z hz''
    · have hxy : le x y = true := by
        rcases htotal x y with h' | h'
        · exact h'
        · exact absurd h' h
      rw [insertLe, if_neg h]
      refine List.Pairwise.cons ?_ (List.Pairwise.cons hy hys)
      intro z hz
      rcases List.mem_cons.mp hz with rfl | hz'
      · exact hxy
      · exact htrans x y z hxy (hy z hz')

theorem sortByLe_pairwise {α : Type} (le : α → α → Bool)
    (htotal : ∀ a b, le a b = true ∨ le b a = true)
    (htrans : ∀ a b c, le a b = true → le b c = true → le a c = true)
    (l : List α) :
    (sortByLe le l).Pairwise (fun a b => le a b = true) := by
  induction l with
  | nil => simp [sortByLe]
  | cons x xs ih => exact insertLe_pairwise le htotal htrans x (sortByLe le xs) ih

theorem findSub_eq_some {l sub : List Char} {p : ℕ}
    (h : findSub l sub = some p) : occursAt l sub p = true ∧ p ≤ l.length := by
  have hp : p ∈ (List.range (l.length + 1)).filter (occursAt l sub) :=
    List.mem_of_mem_head? h
  have := List.mem_filter.mp hp
  exact ⟨this.2, Nat.lt_succ_iff.mp (List.mem_range.mp this.1)⟩

theorem rfindSub_eq_some {l sub : List Char} {p : ℕ}
    (h : rfindSub l sub = some p) : occursAt l sub p = true ∧ p ≤ l.length := by
  have hex : ∃ ys, (List.range (l.length + 1)).filter (occursAt l sub) =
      ys ++ [p] := List.getLast?_eq_some_iff.mp h
  rcases hex with ⟨ys, hys⟩
  have hp : p ∈ (List.range (l.length + 1)).filter (occursAt l sub) := by
    rw [hys]; simp
  have := List.mem_filter.mp hp
  exact ⟨this.2, Nat.lt_succ_iff.mp (List.mem_range.mp this.1)⟩

theorem occursAt_length {l sub : List Char} {p : ℕ}
    (h : occursAt l sub p = true) : p + sub.length ≤ l.length ∨ l.length < p := by
  by_cases hp : p ≤ l.length
  · left
    have hpre : sub <+: l.drop p := List.isPrefixOf_iff_prefix.mp h
    have := hpre.length_le
    rw [List.length_drop] at this
    omega
  · right; omega

theorem findSub_eq_none_single {l : List Char} {c : Char}
    (h : findSub l [c] = none) : c ∉ l := by
  intro hc
  rcases List.mem_iff_getElem.mp hc with ⟨i, hi, hgi⟩
  have hocc : occursAt l [c] i = true := by
    unfold occursAt
    rw [List.drop_eq_getElem_cons hi, hgi]
    simp [List.isPrefixOf]
  have hmem : i ∈ (List.range (l.length + 1)).filter (occursAt l [c]) :=
    List.mem_filter.mpr ⟨List.mem_range.mpr (by omega), hocc⟩
  have hnil : (List.range (l.length + 1)).filter (occursAt l [c]) = [] :=
    List.head?_eq_none_iff.mp h
  rw [hnil] at hmem
  exact absurd hmem (List.not_mem_nil i)

/-- If a sorted list has nodup keys, removing the elements whose key occurs
among the keys of the first `n` sorted elements leaves (a permutation of)
the remaining sorted elements.  Shared by the vector-store prune and the
embedding-cache eviction. -/
theorem filter_key_not_in_take_perm {α κ : Type} [DecidableEq κ]
    (key : α → κ) (l s : List α) (n : ℕ)
    (hperm : s.Perm l) (hnd : (l.map key).Nodup) :
    (l.filter (fun x => decide (key x ∉ (s.take n).map key))).Perm (s.drop n) := by
  have hnds : (s.map key).Nodup := by
    exact ((hperm.map key).nodup_iff).mpr hnd
  have hfilters :
      s.filter (fun x => decide (key x ∉ (s.take n).map key)) = s.drop n := by
    have hsplit : s.filter (fun x => decide (key x ∉ (s.take n).map key)) =
        (s.take n).filter (fun x => decide (key x ∉ (s.take n).map key)) ++
        (s.drop n).filter (fun x => decide (key x ∉ (s.take n).map key)) := by
      rw [← List.filter_append, List.take_append_drop]
    have h1 : (s.take n).filter (fun x => decide (key x ∉ (s.take n).map key)) = [] := by
      rw [List.filter_eq_nil_iff]
      intro a ha
      simp only [decide_eq_true_eq, not_not]
      exact List.mem_map_of_mem key ha
    have h2 : (s.drop n).filter (fun x => decide (key x ∉ (s.take n).map key)) =
        s.drop n := by
      rw [List.filter_eq_self]
      intro a ha
      simp only [decide_eq_true_eq]
      intro hmem
      rcases List.mem_map.mp hmem with ⟨b, hb, hba⟩
      have hnd2 : ((s.take n).map key ++ (s.drop n).map key).Nodup := by
        rw [← List.map_append, List.take_append_drop]; exact hnds
      have hdisj := (List.nodup_append.mp hnd2).2.2
      exact hdisj (hba ▸ List.mem_map_of_mem key hb) (List.mem_map_of_mem key ha)
    rw [hsplit, h1, h2, List.nil_append]
  exact hfilters ▸ (hperm.filter _).symm

/-! ### Vector memory store (src/memory/smart/vector_store.rs) -/

/-- `MAX_CONTENT_LENGTH` from vector_store.rs. -/
def MAX_CONTENT_LENGTH : ℕ := 8192

/-- `MAX_CACHE_ENTRIES` from vector_store.rs. -/
def MAX_CACHE_ENTRIES : ℕ := 512

/-- `MAX_SEARCH_ROWS` from vector_store.rs. -/
def MAX_SEARCH_ROWS : ℕ := 500

/-- A JSON metadata value, reduced to the shapes the store inspects
(`Value::as_f64` succeeds exactly on numbers). -/
inductive MetaVal where
  | num (q : ℚ)
  | str (s : String)
deriving DecidableEq

/-- `Value::as_f64`. -/
def metaAsF64 : MetaVal → Option ℚ
  | MetaVal.num q => some q
  | MetaVal.str _ => none

/-- One row of the `memories` table / one `MemoryItem`.  Timestamps are
abstract ticks (ℕ), floats are exact rationals, text is `List Char`. -/
structure MemoryItem where
  id : String
  content : List Char
  embedding : List ℚ
  metadata : List (String × MetaVal)
  createdAt : ℕ
  updatedAt : ℕ
  accessCount : ℕ
  priority : ℚ
  nspace : String
deriving DecidableEq

/-- Character class of the namespace regex `[a-zA-Z0-9_-]`. -/
def allowedNsChar (c : Char) : Bool :=
  decide (('a' ≤ c ∧ c ≤ 'z') ∨ ('A' ≤ c ∧ c ≤ 'Z') ∨ ('0' ≤ c ∧ c ≤ '9') ∨
    c = '_' ∨ c = '-')

/-- Whether a string matches `^[a-zA-Z0-9_-]{1,64}$` (NAMESPACE_RE). -/
def nsValid (l : List Char) : Bool :=
  decide (1 ≤ l.length ∧ l.length ≤ 64 ∧ ∀ c ∈ l, allowedNsChar c = true)

/-- A single character through the sanitizer of `validate_namespace` /
`session_namespace`. -/
def sanitizeChar (c : Char) : Char := if allowedNsChar c then c else '_'

/-- `validate_namespace` from vector_store.rs: accept a regex match as is,
otherwise replace disallowed characters with an underscore and truncate to 64
characters; an empty sanitized result is an error. -/
def validateNamespace (ns : String) : Except String String :=
  if nsValid ns.toList then Except.ok ns
  else
    let sanitized := ns.toList.map sanitizeChar
    let trimmed := sanitized.take 64
    if trimmed.isEmpty then Except.error "invalid namespace"
    else Except.ok trimmed.asString

/-- `importance` read from the metadata map
(`metadata.get("importance").and_then(as_f64).unwrap_or(0.5)`). -/
def metaImportance (metadata : List (String × MetaVal)) : ℚ :=
  match (metadata.find? (fun p => decide (p.1 = "importance"))).bind
      (fun p => metaAsF64 p.2) with
  | some v => v
  | none => 0.5

/-- SQLite `ORDER BY priority ASC, updated_at ASC` comparison used by
`prune_if_needed` (ties broken by table order via the stable sort). -/
def rowLe (a b : MemoryItem) : Bool :=
  decide (a.priority < b.priority ∨
    (a.priority = b.priority ∧ a.updatedAt ≤ b.updatedAt))

/-- Strictly lower `(priority, updated_at)` pair, lexicographically. -/
def rowLt (a b : MemoryItem) : Prop :=
  a.priority < b.priority ∨ (a.priority = b.priority ∧ a.updatedAt < b.updatedAt)

/-- `prune_if_needed` from vector_store.rs: if the namespace holds more than
`max_memories` rows, select the `count - max_memories` lowest rows by
`(priority ASC, updated_at ASC)` and delete each by `(id, namespace)`. -/
def pruneIfNeeded (store : List MemoryItem) (ns : String) (maxMemories : ℕ) :
    List MemoryItem :=
  let nsRows := store.filter (fun r => decide (r.nspace = ns))
  if maxMemories < nsRows.length then
    let excess := nsRows.length - maxMemories
    let victims := ((sortByLe rowLe nsRows).take excess).map (fun r => r.id)
    store.filter (fun r => decide (¬ (r.id ∈ victims ∧ r.nspace = ns)))
  else store

/-- Embedding selection in `add`/`update`:
`match precomputed { Some(e) if !e.is_empty() => e, _ => embed(content) }`. -/
def embedResolve (precomputed : Option (List ℚ))
    (embedF : List Char → Except String (List ℚ)) (content : List Char) :
    Except String (List ℚ) :=
  match precomputed with
  | some e => if e.isEmpty then embedF content else Except.ok e
  | none => embedF content

/-- `VectorMemoryStore::add`.  External inputs are explicit parameters:
`now` (clock), `newId` (the fresh UUID), `embedF` (the embedding service).
The SQLite `INSERT` enforces the `id` primary key. -/
def addMem (store : List MemoryItem) (content : List Char)
    (metadata : List (String × MetaVal)) (nsOpt : Option String)
    (precomputed : Option (List ℚ)) (selfNs : String) (maxMemories : ℕ)
    (now : ℕ) (newId : String)
    (embedF : List Char → Except String (List ℚ)) :
    Except String (MemoryItem × List MemoryItem) :=
  let trimmed := trimChars content
  if trimmed.isEmpty then Except.error "content cannot be empty"
  else if MAX_CONTENT_LENGTH < trimmed.length then
    Except.error "content exceeds maximum length"
  else
    match validateNamespace (nsOpt.getD selfNs) with
    | Except.error e => Except.error e
    | Except.ok ns =>
      match embedResolve precomputed embedF trimmed with
      | Except.error e => Except.error e
      | Except.ok embedding =>
        if store.any (fun r => decide (r.id = newId)) then
          Except.error "UNIQUE constraint failed: memories.id"
        else
          let row : MemoryItem :=
            { id := newId, content := trimmed, embedding := embedding,
              metadata := metadata, createdAt := now, updatedAt := now,
              accessCount := 0,
              priority := clampQ (metaImportance metadata * 0.4 + 0.3) 0 1,
              nspace := ns }
          Except.ok (row, pruneIfNeeded (store ++ [row]) ns maxMemories)

/-- `VectorMemoryStore::get`: first row matching `(id, namespace)`. -/
def getMem (store : List MemoryItem) (memoryId : String)
    (nsOpt : Option String) (selfNs : String) :
    Except String (Option MemoryItem) :=
  match validateNamespace (nsOpt.getD selfNs) with
  | Except.error e => Except.error e
  | Except.ok ns =>
    Except.ok (store.find? (fun r => decide (r.id = memoryId ∧ r.nspace = ns)))

/-- `VectorMemoryStore::update`.  `sqrtF` models `f64::sqrt` on the access
count (irrational in general, so it stays a parameter). -/
def updateMem (store : List MemoryItem) (memoryId : String)
    (content : List Char) (metadata : List (String × MetaVal))
    (nsOpt : Option String) (precomputed : Option (List ℚ)) (selfNs : String)
    (now : ℕ) (embedF : List Char → Except String (List ℚ))
    (sqrtF : ℕ → ℚ) :
    Except String (Option (MemoryItem × List MemoryItem)) :=
  let trimmed := trimChars content
  if trimmed.isEmpty then Except.error "content cannot be empty"
  else if MAX_CONTENT_LENGTH < trimmed.length then
    Except.error "content exceeds maximum length"
  else
    match validateNamespace (nsOpt.getD selfNs) with
    | Except.error e => Except.error e
    | Except.ok ns =>
      match store.find? (fun r => decide (r.id = memoryId ∧ r.nspace = ns)) with
      | none => Except.ok none
      | some existing =>
        let embeddingRes :=
          match precomputed with
          | some e =>
            if e.isEmpty then
              (if trimmed = existing.content then Except.ok existing.embedding
               else embedF trimmed)
            else Except.ok e
          | none =>
            if trimmed = existing.content then Except.ok existing.embedding
            else embedF trimmed
        match embeddingRes with
        | Except.error e => Except.error e
        | Except.ok embedding =>
          let importance := metaImportance metadata
          let ageDays : ℚ := ((now : ℚ) - (existing.createdAt : ℚ)) / 86400
          let recency := clampQ (1 - ageDays / 30) 0 1
          let accessScore := clampQ (sqrtF existing.accessCount / 10) 0 1
          let priority :=
            clampQ (importance * 0.4 + recency * 0.3 + accessScore * 0.3) 0 1
          let updatedRow : MemoryItem :=
            { id := memoryId, content := trimmed, embedding := embedding,
              metadata := metadata, createdAt := existing.createdAt,
              updatedAt := now, accessCount := existing.accessCount,
              priority := priority, nspace := ns }
          Except.ok (some (updatedRow,
            store.map (fun r =>
              if r.id = memoryId ∧ r.nspace = ns then
                { r with content := trimmed, embedding := embedding,
                         metadata := metadata, updatedAt := now,
                         priority := priority }
              else r)))

/-- The rows loaded by `search_inner`:
`SELECT ... WHERE namespace = ? ORDER BY priority DESC, updated_at DESC LIMIT 500`. -/
def loadedRows (store : List MemoryItem) (ns : String) : List MemoryItem :=
  (sortByLe (fun a b => rowLe b a)
    (store.filter (fun r => decide (r.nspace = ns)))).take MAX_SEARCH_ROWS

/-- The blended ranking score:
`combined = similarity * (1 - priority_weight) + priority * priority_weight`. -/
def combinedScore (priorityWeight similarity : ℚ) (item : MemoryItem) : ℚ :=
  similarity * (1 - priorityWeight) + item.priority * priorityWeight

/-- Descending comparison on the combined score (Rust
`b.2.partial_cmp(&a.2)` sort). -/
def scoredGe (a b : MemoryItem × ℚ × ℚ) : Bool := decide (b.2.2 ≤ a.2.2)

/-- The filtering loop of `search_inner`: each loaded row whose similarity
clears the threshold is paired with its similarity and combined score
(the push-if loop expressed as filter-then-map). -/
def searchScored (store : List MemoryItem) (queryEmbedding : List ℚ)
    (threshold : ℚ) (ns : String) (priorityWeight : ℚ)
    (simF : List ℚ → List ℚ → ℚ) : List (MemoryItem × ℚ × ℚ) :=
  ((loadedRows store ns).filter
    (fun item => decide (threshold ≤ simF queryEmbedding item.embedding))).map
    (fun item => (item, simF queryEmbedding item.embedding,
      combinedScore priorityWeight (simF queryEmbedding item.embedding) item))

/-- `VectorMemoryStore::search_inner`.  `simF` is the cosine-similarity
function (kept as a parameter: its `f32` square roots have no exact rational
counterpart; every property proved below holds for an arbitrary similarity).
Returns the `(item, similarity)` pairs and the updated table (the
`access_count` bump applied to each returned row). -/
def searchInner (store : List MemoryItem) (queryEmbedding : List ℚ)
    (topK : ℕ) (threshold : ℚ) (ns : String) (priorityWeight : ℚ)
    (simF : List ℚ → List ℚ → ℚ) :
    List (MemoryItem × ℚ) × List MemoryItem :=
  let scored := searchScored store queryEmbedding threshold ns priorityWeight simF
  let ranked := sortByLe scoredGe scored
  let trimmed := (ranked.take topK).map (fun t => (t.1, t.2.1))
  let bumped := trimmed.foldl (fun st t =>
    st.map (fun r =>
      if r.id = t.1.id ∧ r.nspace = t.1.nspace then
        { r with accessCount := r.accessCount + 1 }
      else r)) store
  (trimmed, bumped)

/-! ### Embedding cache (src/memory/smart/vector_store.rs) -/

/-- `CacheEntry` from vector_store.rs. -/
structure CacheEntry where
  embedding : List ℚ
  insertOrder : ℕ
deriving DecidableEq

/-- `EmbeddingCache`: the `HashMap<String, CacheEntry>` becomes an
association list with distinct keys, plus the monotonic counter. -/
structure EmbeddingCache where
  entries : List (String × CacheEntry)
  counter : ℕ
deriving DecidableEq

/-- `EmbeddingCache::new()`. -/
def cacheNew : EmbeddingCache := { entries := [], counter := 0 }

/-- `EmbeddingCache::get`. -/
def cacheGet (c : EmbeddingCache) (key : String) : Option (List ℚ) :=
  (c.entries.find? (fun p => decide (p.1 = key))).map (fun p => p.2.embedding)

/-- Ascending comparison by `insert_order` (`sort_by_key`). -/
def entryLe (a b : String × CacheEntry) : Bool :=
  decide (a.2.insertOrder ≤ b.2.insertOrder)

/-- `EmbeddingCache::evict_oldest_quarter`: drop the `len / 4` entries with
the smallest `insert_order`, or clear everything when `len / 4 = 0`. -/
def evictOldestQuarter (entries : List (String × CacheEntry)) :
    List (String × CacheEntry) :=
  let toRemove := entries.length / 4
  if toRemove = 0 then []
  else
    let victims := ((sortByLe entryLe entries).take toRemove).map (fun p => p.1)
    entries.filter (fun p => decide (p.1 ∉ victims))

/-- `HashMap::insert`: replace the value under an existing key, otherwise
add a new binding. -/
def hashMapInsert (entries : List (String × CacheEntry)) (k : String)
    (v : CacheEntry) : List (String × CacheEntry) :=
  if entries.any (fun p => decide (p.1 = k)) then
    entries.map (fun p => if p.1 = k then (k, v) else p)
  else entries ++ [(k, v)]

/-- `EmbeddingCache::insert`: evict when at capacity, then bump the counter
and insert the entry with the new counter as its `insert_order`. -/
def cacheInsert (c : EmbeddingCache) (key : String) (embedding : List ℚ) :
    EmbeddingCache :=
  let base :=
    if MAX_CACHE_ENTRIES ≤ c.entries.length then evictOldestQuarter c.entries
    else c.entries
  let counter := c.counter + 1
  { entries := hashMapInsert base key
      { embedding := embedding, insertOrder := counter },
    counter := counter }

/-- A sequence of inserts applied to a fresh cache. -/
def cacheRun (ops : List (String × List ℚ)) : EmbeddingCache :=
  ops.foldl (fun c op => cacheInsert c op.1 op.2) cacheNew

/-! ### File memory store (src/memory/simple/file_store.rs) -/

/-- The ellipsis marker appended by `truncate`. -/
def truncMarker : List Char := "... (truncated)".toList

/-- The sentence/paragraph separators searched by `truncate`, in priority
order. -/
def truncSeps : List (List Char) := ["\n\n".toList, ".\n".toList, ". ".toList, "\n".toList]

/-- The backward separator search of `truncate`: for each separator in
priority order, take the last occurrence inside the window and accept it only
past the halfway point; returns the cut position (occurrence start plus
separator length). -/
def truncBreak (window : List Char) (truncateAt : ℕ) :
    List (List Char) → Option ℕ
  | [] => none
  | sep :: rest =>
    match rfindSub window sep with
    | some pos =>
      if truncateAt / 2 < pos then some (pos + sep.length)
      else truncBreak window truncateAt rest
    | none => truncBreak window truncateAt rest

/-- `truncate` from file_store.rs. -/
def truncate (content : List Char) (maxChars : ℕ) : List Char :=
  if content.length ≤ maxChars then content
  else
    let truncateAt := maxChars - 20
    let window := content.take truncateAt
    match truncBreak window truncateAt truncSeps with
    | some cut => content.take cut ++ '\n' :: truncMarker
    | none =>
      match rfindSub window [' '] with
      | some pos =>
        if truncateAt / 2 < pos then content.take pos ++ ' ' :: truncMarker
        else content.take truncateAt ++ truncMarker
      | none => content.take truncateAt ++ truncMarker

/-- The `"\n## "` delimiter that ends a section. -/
def sectionDelim : List Char := "\n## ".toList

/-- The oldest-line-dropping loop of `append_section_entries`
(`while combined.len() > limit { drop through the first newline or break }`),
with explicit fuel (one unit per dropped line suffices). -/
def trimFrontAux : ℕ → List Char → ℕ → List Char
  | 0, l, _ => l
  | fuel + 1, l, limit =>
    if limit < l.length then
      match findSub l ['\n'] with
      | some pos => trimFrontAux fuel (l.drop (pos + 1)) limit
      | none => l
    else l

/-- The oldest-line-dropping loop of `append_section_entries`. -/
def trimFront (l : List Char) (limit : ℕ) : List Char := trimFrontAux l.length l limit

/-- `MemoryStore::append_section_entries` on a document held in memory.
The file system read/write and process-wide lock around it are external;
this is the pure document transformation the claim is about. -/
def appendSectionEntries (existing : List Char) (sectionHeader : List Char)
    (entries : List (List Char)) (maxSectionChars : Option ℕ) : List Char :=
  if entries.isEmpty then existing
  else
    let newLines := List.intercalate ['\n'] entries
    match findSub existing sectionHeader with
    | some sectionStart =>
      let afterHeader := sectionStart + sectionHeader.length
      let before := existing.take afterHeader
      let rest := existing.drop afterHeader
      let sectionEnd := (findSub rest sectionDelim).getD rest.length
      let sectionBody := (rest.take sectionEnd).dropWhile (fun c => decide (c = '\n'))
      let afterSection := rest.drop sectionEnd
      let combined0 :=
        if sectionBody.isEmpty then newLines
        else sectionBody ++ '\n' :: newLines
      let combined :=
        match maxSectionChars with
        | some limit => trimFront combined0 limit
        | none => combined0
      before ++ '\n' :: (combined ++ afterSection)
    | none =>
      let base :=
        if ¬ existing.isEmpty ∧ existing.getLast? ≠ some '\n' then
          existing ++ ['\n']
        else existing
      base ++ '\n' :: (sectionHeader ++ '\n' :: (newLines ++ ['\n']))

/-- The body of the section named by `sectionHeader` in a document, parsed
exactly as `append_section_entries` parses it. -/
def sectionBodyOf (doc : List Char) (sectionHeader : List Char) :
    Option (List Char) :=
  match findSub doc sectionHeader with
  | some sectionStart =>
    let rest := doc.drop (sectionStart + sectionHeader.length)
    let sectionEnd := (findSub rest sectionDelim).getD rest.length
    some ((rest.take sectionEnd).dropWhile (fun c => decide (c = '\n')))
  | none => none

/-! ### Agent loop (src/agent/mod.rs) -/

/-- `ChatMessage` from the smart-memory client: a role/text pair. -/
structure ChatMessage where
  role : String
  content : String
deriving DecidableEq

/-- `SUMMARY_TRIGGER_USER_TURNS` from agent/mod.rs. -/
def SUMMARY_TRIGGER_USER_TURNS : ℕ := 3

/-- `SUMMARY_CONTEXT_MESSAGES` from agent/mod.rs. -/
def SUMMARY_CONTEXT_MESSAGES : ℕ := 6

/-- `SUMMARY_MAX_WINDOW_MESSAGES` from agent/mod.rs. -/
def SUMMARY_MAX_WINDOW_MESSAGES : ℕ := 18

/-- The outcome of the external `summarizer.summarize(&window)` call:
`Ok(Some(summary))`, `Ok(None)`, or `Err(_)`. -/
inductive SummarizeOutcome where
  | produced (content : String) (source : String) (importance : ℚ)
  | nothing
  | failed
deriving DecidableEq

/-- The summarization window built by `spawn_memory_summary_ingestion`. -/
def summaryWindow (startIndex : ℕ) (messages : List ChatMessage) :
    List ChatMessage :=
  let contextStart := startIndex - SUMMARY_CONTEXT_MESSAGES
  let window := messages.drop contextStart
  if SUMMARY_MAX_WINDOW_MESSAGES < window.length then
    window.drop (window.length - SUMMARY_MAX_WINDOW_MESSAGES)
  else window

/-- Observable effect of one summary-ingestion task. -/
structure IngestionResult where
  watermark : ℕ
  filePersisted : Bool
  vectorInsertAttempted : Bool
deriving DecidableEq

/-- The body of the task spawned by `spawn_memory_summary_ingestion`, for a
session whose watermark is `watermark` (0 when absent) and whose history
snapshot is `messages`.  `outcome` is the summarizer's answer on the window,
`vectorEnabled` whether a vector store is configured.  `filePersisted` records
whether the file-store writes (conversation observation, extracted notes,
user observations) ran, `vectorInsertAttempted` whether the vector-store
insert was attempted (its own failure is logged and ignored). -/
def summaryIngestion (watermark : ℕ) (messages : List ChatMessage)
    (outcome : SummarizeOutcome) (vectorEnabled : Bool) : IngestionResult :=
  if messages.length ≤ watermark then
    { watermark := watermark, filePersisted := false,
      vectorInsertAttempted := false }
  else
    let unsummarized := messages.drop watermark
    let newUserTurns := unsummarized.countP (fun m => decide (m.role = "user"))
    if newUserTurns < SUMMARY_TRIGGER_USER_TURNS then
      { watermark := watermark, filePersisted := false,
        vectorInsertAttempted := false }
    else
      match outcome with
      | SummarizeOutcome.failed =>
        { watermark := watermark, filePersisted := false,
          vectorInsertAttempted := false }
      | SummarizeOutcome.nothing =>
        { watermark := messages.length, filePersisted := false,
          vectorInsertAttempted := false }
      | SummarizeOutcome.produced content _ _ =>
        if (trimChars content.toList).isEmpty then
          { watermark := messages.length, filePersisted := false,
            vectorInsertAttempted := false }
        else
          { watermark := messages.length, filePersisted := true,
            vectorInsertAttempted := vectorEnabled }

/-- The watermark after a sequence of ingestion tasks for one session, each
with its own history snapshot, summarizer outcome and vector-store
availability. -/
def summaryIngestionTrace (watermark : ℕ) :
    List (List ChatMessage × SummarizeOutcome × Bool) → ℕ
  | [] => watermark
  | step :: rest =>
    summaryIngestionTrace
      (summaryIngestion watermark step.1 step.2.1 step.2.2).watermark rest

/-- `append_text_history`: push the user text then the assistant text, each
skipped when blank. -/
def appendTextHistory (history : List ChatMessage)
    (userText assistantText : String) : List ChatMessage :=
  let h1 :=
    if (trimChars userText.toList).isEmpty then history
    else history ++ [{ role := "user", content := userText }]
  if (trimChars assistantText.toList).isEmpty then h1
  else h1 ++ [{ role := "assistant", content := assistantText }]

/-- `AgentLoop::build_history_for_llm`: below the threshold the stored
history is sent as is; otherwise a compacted copy is built and a flag set.
The pluggable compaction policy (`SessionCompactor`, not part of the
embedded sources) is a function parameter. -/
def buildHistoryForLlm (compact : List ChatMessage → List ChatMessage)
    (threshold : ℕ) (history : List ChatMessage) :
    List ChatMessage × Bool :=
  if history.length < threshold then (history, false)
  else (compact history, true)

/-- The history-relevant effect of one successful `process_message` turn:
what is sent to the LLM (a possibly compacted copy plus the flag) and the
new stored history (the original history with the turn appended). -/
def processMessageSuccess (compact : List ChatMessage → List ChatMessage)
    (threshold : ℕ) (history : List ChatMessage)
    (userText responseText : String) :
    List ChatMessage × List ChatMessage × Bool :=
  let sent := buildHistoryForLlm compact threshold history
  (appendTextHistory history userText responseText, sent.1, sent.2)

/-- `session_namespace` character loop from agent/mod.rs: push sanitized
characters until the output reaches 64. -/
def sessionNamespaceAux (acc : List Char) : List Char → List Char
  | [] => acc
  | c :: rest =>
    if 64 ≤ acc.length then acc
    else sessionNamespaceAux (acc ++ [sanitizeChar c]) rest

/-- `session_namespace` from agent/mod.rs: sanitize `channel:chat_id`,
falling back to "default" when the result is empty. -/
def sessionNamespace (sessionKey : String) : String :=
  let out := sessionNamespaceAux [] sessionKey.toList
  if out.isEmpty then "default" else out.asString

/-! ### Supporting lemmas -/

theorem sanitizeChar_allowed (c : Char) : allowedNsChar (sanitizeChar c) = true := by
  unfold sanitizeChar
  by_cases h : allowedNsChar c = true
  · rw [if_pos h]; exact h
  · rw [if_neg h]; decide

theorem sessionNamespaceAux_eq (l : List Char) :
    ∀ acc : List Char,
      sessionNamespaceAux acc l = acc ++ (l.map sanitizeChar).take (64 - acc.length) := by
  induction l with
  | nil => intro acc; simp [sessionNamespaceAux]
  | cons c rest ih =>
    intro acc
    unfold sessionNamespaceAux
    by_cases h : 64 ≤ acc.length
    · rw [if_pos h]
      have : 64 - acc.length = 0 := by omega
      simp [this]
    · rw [if_neg h]
      rw [ih (acc ++ [sanitizeChar c])]
      obtain ⟨k, hk⟩ : ∃ k, 64 - acc.length = k + 1 := ⟨64 - acc.length - 1, by omega⟩
      have hk' : 64 - (acc ++ [sanitizeChar c]).length = k := by
        simp only [List.length_append, List.length_cons, List.length_nil]
        omega
      rw [hk', hk]
      simp [List.take_succ_cons]

theorem sessionNamespace_eq_take (s : String) :
    sessionNamespace s =
      (if ((s.toList.map sanitizeChar).take 64).isEmpty then "default"
       else ((s.toList.map sanitizeChar).take 64).asString) := by
  unfold sessionNamespace
  rw [sessionNamespaceAux_eq]
  simp

/-- Claim C5: session-namespace sanitization maps every input to a string
matching the namespace regex (character class `[a-zA-Z0-9_-]`, length 1–64),
by replacing each disallowed character with an underscore and truncating to
64 characters, with empty results falling back to the "default" namespace;
two inputs of equal length whose positions either agree or hold disallowed
characters on both sides sanitize to the same output. -/
theorem C5_namespace_sanitization (s t : String)
    (hlen : s.toList.length = t.toList.length)
    (hsame : ∀ i, i < s.toList.length →
      (s.toList.getD i ' ' = t.toList.getD i ' ' ∨
        (allowedNsChar (s.toList.getD i ' ') = false ∧
         allowedNsChar (t.toList.getD i ' ') = false))) :
    nsValid (sessionNamespace s).toList = true
    ∧ sessionNamespace s =
        (if ((s.toList.map sanitizeChar).take 64).isEmpty then "default"
         else ((s.toList.map sanitizeChar).take 64).asString)
    ∧ sessionNamespace s = sessionNamespace t := by
  refine ⟨?_, sessionNamespace_eq_take s, ?_⟩
  · rw [sessionNamespace_eq_take s]
    by_cases h : ((s.toList.map sanitizeChar).take 64).isEmpty = true
    · rw [if_pos h]; decide
    · rw [if_neg h]
      have htl : (((s.toList.map sanitizeChar).take 64).asString).toList =
          (s.toList.map sanitizeChar).take 64 := rfl
      rw [htl]
      unfold nsValid
      rw [decide_eq_true_eq]
      refine ⟨?_, ?_, ?_⟩
      · have : (s.toList.map sanitizeChar).take 64 ≠ [] := by
          intro hcon
          rw [hcon] at h
          exact h rfl
        have := List.length_pos.mpr this
        omega
      · rw [List.length_take]; omega
      · intro c hc
        have hc' : c ∈ s.toList.map sanitizeChar := List.mem_of_mem_take hc
        rcases List.mem_map.mp hc' with ⟨a, _, rfl⟩
        exact sanitizeChar_allowed a
  · have hmap : s.toList.map sanitizeChar = t.toList.map sanitizeChar := by
      apply List.ext_getElem
      · simp only [List.length_map]; exact hlen
      · intro i h1 h2
        have hi : i < s.toList.length := by
          rw [List.length_map] at h1; exact h1
        have hit : i < t.toList.length := by omega
        rw [List.getElem_map, List.getElem_map]
        have hgd1 : s.toList.getD i ' ' = s.toList[i] := List.getD_eq_getElem _ _ hi
        have hgd2 : t.toList.getD i ' ' = t.toList[i] := List.getD_eq_getElem _ _ hit
        rcases hsame i hi with heq | ⟨ha, hb⟩
        · rw [hgd1, hgd2] at heq
          rw [heq]
        · rw [hgd1] at ha
          rw [hgd2] at hb
          unfold sanitizeChar
          rw [if_neg (by rw [ha]; exact Bool.false_ne_true),
              if_neg (by rw [hb]; exact Bool.false_ne_true)]
    rw [sessionNamespace_eq_take s, sessionNamespace_eq_take t, hmap]

/-- Witness for C5 at concrete inputs: "tg:42!a" and "tg:42?a" differ only
in a disallowed character at the same position and sanitize identically. -/
theorem C5_namespace_sanitization_witness :
    sessionNamespace "tg:42!a" = sessionNamespace "tg:42?a" :=
  (C5_namespace_sanitization "tg:42!a" "tg:42?a" (by decide)
    (by decide)).2.2


theorem truncBreak_bound {window : List Char} {ta cut : ℕ} :
    ∀ seps : List (List Char), truncBreak window ta seps = some cut →
      ta / 2 < cut ∧ cut ≤ window.length := by
  intro seps
  induction seps with
  | nil => intro h; exact absurd h (by simp [truncBreak])
  | cons sep rest ih =>
    intro h
    unfold truncBreak at h
    split at h
    next pos heq =>
      split at h
      next hp =>
        have hcut : cut = pos + sep.length := by
          injection h with h'
          exact h'.symm
        obtain ⟨hocc, hple⟩ := rfindSub_eq_some heq
        rcases occursAt_length hocc with hb | hb
        · omega
        · omega
      next hp => exact ih h
    next heq => exact ih h

/-- Claim C7: `truncate` returns its input unchanged when it fits in
`maxChars`; otherwise the result is a prefix of the input cut at most at
`maxChars - 20`, followed by the ellipsis marker (optionally preceded by the
newline or space at the break), and the result never exceeds
`maxChars + 15` characters (15 = marker length). -/
theorem C7_truncate_bounds (content : List Char) (maxChars : ℕ) :
    (content.length ≤ maxChars → truncate content maxChars = content)
    ∧ (truncate content maxChars).length ≤ maxChars + truncMarker.length
    ∧ (maxChars < content.length →
        ∃ cut tail, truncate content maxChars = content.take cut ++ tail
          ∧ cut ≤ maxChars - 20
          ∧ (tail = '\n' :: truncMarker ∨ tail = ' ' :: truncMarker ∨
             tail = truncMarker)) := by
  have hmarker : truncMarker.length = 15 := by decide
  by_cases hlen : content.length ≤ maxChars
  · refine ⟨fun _ => ?_, ?_, fun hcon => absurd hcon (by omega)⟩
    · unfold truncate; rw [if_pos hlen]
    · unfold truncate; rw [if_pos hlen]; omega
  · have hwin : (content.take (maxChars - 20)).length = maxChars - 20 := by
      rw [List.length_take]; omega
    have hgoal : ∃ cut tail, truncate content maxChars = content.take cut ++ tail
        ∧ cut ≤ maxChars - 20
        ∧ (tail = '\n' :: truncMarker ∨ tail = ' ' :: truncMarker ∨
           tail = truncMarker)
        ∧ (tail = truncMarker ∨ 1 ≤ cut) := by
      unfold truncate
      rw [if_neg hlen]
      rcases hb : truncBreak (content.take (maxChars - 20)) (maxChars - 20)
          truncSeps with _ | cut
      · rcases hs : rfindSub (content.take (maxChars - 20)) [' '] with _ | pos
        · simp only [hb, hs]
          exact ⟨maxChars - 20, truncMarker, rfl, le_refl _,
            Or.inr (Or.inr rfl), Or.inl rfl⟩
        · simp only [hb, hs]
          by_cases hp : (maxChars - 20) / 2 < pos
          · rw [if_pos hp]
            obtain ⟨hocc, hple⟩ := rfindSub_eq_some hs
            rw [hwin] at hple
            exact ⟨pos, ' ' :: truncMarker, rfl, hple, Or.inr (Or.inl rfl),
              Or.inr (by omega)⟩
          · rw [if_neg hp]
            exact ⟨maxChars - 20, truncMarker, rfl, le_refl _,
              Or.inr (Or.inr rfl), Or.inl rfl⟩
      · simp only [hb]
        obtain ⟨hgt, hle⟩ := truncBreak_bound truncSeps hb
        rw [hwin] at hle
        exact ⟨cut, '\n' :: truncMarker, rfl, hle, Or.inl rfl, Or.inr (by omega)⟩
    refine ⟨fun hcon => absurd hcon hlen, ?_,
      fun _ => by
        obtain ⟨cut, tail, heq, hcut, htail, _⟩ := hgoal
        exact ⟨cut, tail, heq, hcut, htail⟩⟩
    obtain ⟨cut, tail, heq, hcut, htail, hextra⟩ := hgoal
    rw [heq, List.length_append, List.length_take]
    have hmin : min cut content.length ≤ cut := min_le_left _ _
    rcases htail with rfl | rfl | rfl
    · rcases hextra with habs | h1
      · exact absurd habs (by decide)
      · simp only [List.length_cons, hmarker]
        omega
    · rcases hextra with habs | h1
      · exact absurd habs (by decide)
      · simp only [List.length_cons, hmarker]
        omega
    · simp only [hmarker]
      omega

/-- Witness for C7 at concrete inputs: a short string is returned unchanged,
and an over-long string is truncated within the bound. -/
theorem C7_truncate_bounds_witness :
    truncate "note".toList 80 = "note".toList ∧
    (truncate "alpha beta".toList 4).length ≤ 4 + truncMarker.length :=
  ⟨(C7_truncate_bounds "note".toList 80).1 (by decide),
   (C7_truncate_bounds "alpha beta".toList 4).2.1⟩

theorem appendTextHistory_append (history : List ChatMessage)
    (userText assistantText : String) :
    appendTextHistory history userText assistantText =
      history ++ appendTextHistory [] userText assistantText := by
  unfold appendTextHistory
  by_cases hu : trimChars userText.data = [] <;>
    by_cases ha : trimChars assistantText.data = [] <;>
    simp [List.isEmpty_iff, hu, ha]

/-- Claim C9: a successful turn never persists the compacted history: the
LLM copy is compacted (with its flag) exactly when the stored history has
reached the threshold, while the new stored history is always the original
stored history with the turn's user/assistant texts appended — in
particular it does not depend on the compaction function at all. -/
theorem C9_history_compaction_frame
    (compact compactAlt : List ChatMessage → List ChatMessage)
    (threshold : ℕ) (history : List ChatMessage)
    (userText responseText : String) :
    ((processMessageSuccess compact threshold history userText responseText).1 =
      history ++ appendTextHistory [] userText responseText)
    ∧ history <+:
        (processMessageSuccess compact threshold history userText responseText).1
    ∧ ((processMessageSuccess compact threshold history userText responseText).1 =
        (processMessageSuccess compactAlt threshold history userText responseText).1)
    ∧ (threshold ≤ history.length →
        (processMessageSuccess compact threshold history userText responseText).2 =
          (compact history, true))
    ∧ (history.length < threshold →
        (processMessageSuccess compact threshold history userText responseText).2 =
          (history, false)) := by
  refine ⟨appendTextHistory_append history userText responseText, ?_, rfl, ?_, ?_⟩
  · rw [show (processMessageSuccess compact threshold history userText responseText).1 =
      appendTextHistory history userText responseText from rfl]
    rw [appendTextHistory_append history userText responseText]
    exact ⟨appendTextHistory [] userText responseText, rfl⟩
  · intro h
    show buildHistoryForLlm compact threshold history = (compact history, true)
    unfold buildHistoryForLlm
    rw [if_neg (by omega)]
  · intro h
    show buildHistoryForLlm compact threshold history = (history, false)
    unfold buildHistoryForLlm
    rw [if_pos h]

/-- Witness for C9 at a concrete input: a two-message history below the
threshold is sent uncompacted while the stored history gains the new turn. -/
theorem C9_history_compaction_frame_witness :
    (processMessageSuccess (fun _ => []) 10
        [{ role := "user", content := "hi" }] "ok?" "yes").1 =
      [{ role := "user", content := "hi" }] ++
        appendTextHistory [] "ok?" "yes" ∧
    (processMessageSuccess (fun _ => []) 10
        [{ role := "user", content := "hi" }] "ok?" "yes").2 =
      ([{ role := "user", content := "hi" }], false) :=
  ⟨(C9_history_compaction_frame (fun _ => []) (fun l => l) 10
      [{ role := "user", content := "hi" }] "ok?" "yes").1,
   (C9_history_compaction_frame (fun _ => []) (fun l => l) 10
      [{ role := "user", content := "hi" }] "ok?" "yes").2.2.2.2 (by decide)⟩
theorem summaryIngestion_eval_stale (wm : ℕ) (messages : List ChatMessage)
    (outcome : SummarizeOutcome) (ve : Bool) (h1 : messages.length ≤ wm) :
    summaryIngestion wm messages outcome ve =
      { watermark := wm, filePersisted := false, vectorInsertAttempted := false } := by
  unfold summaryIngestion
  rw [if_pos h1]

theorem summaryIngestion_eval_few (wm : ℕ) (messages : List ChatMessage)
    (outcome : SummarizeOutcome) (ve : Bool) (h1 : ¬ messages.length ≤ wm)
    (h2 : (messages.drop wm).countP (fun m => decide (m.role = "user")) <
      SUMMARY_TRIGGER_USER_TURNS) :
    summaryIngestion wm messages outcome ve =
      { watermark := wm, filePersisted := false, vectorInsertAttempted := false } := by
  unfold summaryIngestion
  rw [if_neg h1]
  dsimp only
  rw [if_pos h2]

theorem summaryIngestion_eval_main (wm : ℕ) (messages : List ChatMessage)
    (outcome : SummarizeOutcome) (ve : Bool) (h1 : ¬ messages.length ≤ wm)
    (h2 : ¬ (messages.drop wm).countP (fun m => decide (m.role = "user")) <
      SUMMARY_TRIGGER_USER_TURNS) :
    summaryIngestion wm messages outcome ve =
      (match outcome with
       | SummarizeOutcome.failed =>
         { watermark := wm, filePersisted := false, vectorInsertAttempted := false }
       | SummarizeOutcome.nothing =>
         { watermark := messages.length, filePersisted := false,
           vectorInsertAttempted := false }
       | SummarizeOutcome.produced c _ _ =>
         if (trimChars c.toList).isEmpty = true then
           { watermark := messages.length, filePersisted := false,
             vectorInsertAttempted := false }
         else
           { watermark := messages.length, filePersisted := true,
             vectorInsertAttempted := ve }) := by
  unfold summaryIngestion
  rw [if_neg h1]
  dsimp only
  rw [if_neg h2]

theorem summaryIngestion_watermark_eq (wm : ℕ) (messages : List ChatMessage)
    (outcome : SummarizeOutcome) (ve : Bool) :
    (summaryIngestion wm messages outcome ve).watermark =
      (if wm < messages.length
          ∧ SUMMARY_TRIGGER_USER_TURNS ≤
            (messages.drop wm).countP (fun m => decide (m.role = "user"))
          ∧ outcome ≠ SummarizeOutcome.failed
       then messages.length else wm) := by
  by_cases h1 : messages.length ≤ wm
  · rw [summaryIngestion_eval_stale wm messages outcome ve h1,
      if_neg (fun hcon => absurd hcon.1 (by omega))]
  · by_cases h2 : (messages.drop wm).countP (fun m => decide (m.role = "user")) <
        SUMMARY_TRIGGER_USER_TURNS
    · rw [summaryIngestion_eval_few wm messages outcome ve h1 h2,
        if_neg (fun hcon => absurd hcon.2.1 (by omega))]
    · rw [summaryIngestion_eval_main wm messages outcome ve h1 h2]
      cases outcome with
      | failed => rw [if_neg (fun hcon => hcon.2.2 rfl)]
      | nothing => rw [if_pos ⟨by omega, by omega, by simp⟩]
      | produced c src imp =>
        dsimp only
        have hcond : wm < messages.length ∧
            SUMMARY_TRIGGER_USER_TURNS ≤
              (messages.drop wm).countP (fun m => decide (m.role = "user")) ∧
            SummarizeOutcome.produced c src imp ≠ SummarizeOutcome.failed :=
          ⟨by omega, by omega, by simp⟩
        rw [if_pos hcond]
        split <;> rfl

theorem summaryIngestion_file_iff (wm : ℕ) (messages : List ChatMessage)
    (outcome : SummarizeOutcome) (ve : Bool) :
    (summaryIngestion wm messages outcome ve).filePersisted = true ↔
      (wm < messages.length
        ∧ SUMMARY_TRIGGER_USER_TURNS ≤
          (messages.drop wm).countP (fun m => decide (m.role = "user"))
        ∧ ∃ c src imp, outcome = SummarizeOutcome.produced c src imp
            ∧ (trimChars c.toList).isEmpty = false) := by
  by_cases h1 : messages.length ≤ wm
  · rw [summaryIngestion_eval_stale wm messages outcome ve h1]
    simp only [show (false = true) ↔ False by simp, false_iff]
    exact fun hcon => absurd hcon.1 (by omega)
  · by_cases h2 : (messages.drop wm).countP (fun m => decide (m.role = "user")) <
        SUMMARY_TRIGGER_USER_TURNS
    · rw [summaryIngestion_eval_few wm messages outcome ve h1 h2]
      simp only [show (false = true) ↔ False by simp, false_iff]
      exact fun hcon => absurd hcon.2.1 (by omega)
    · rw [summaryIngestion_eval_main wm messages outcome ve h1 h2]
      cases outcome with
      | failed =>
        simp only [show (false = true) ↔ False by simp, false_iff]
        rintro ⟨_, _, c, src, imp, heq, _⟩
        exact absurd heq (by simp)
      | nothing =>
        simp only [show (false = true) ↔ False by simp, false_iff]
        rintro ⟨_, _, c, src, imp, heq, _⟩
        exact absurd heq (by simp)
      | produced c src imp =>
        dsimp only
        by_cases h3 : (trimChars c.toList).isEmpty = true
        · rw [if_pos h3]
          simp only [show (false = true) ↔ False by simp, false_iff]
          rintro ⟨_, _, c2, src2, imp2, heq, hne⟩
          injection heq with e1 e2 e3
          subst e1
          rw [h3] at hne
          exact absurd hne (by simp)
        · rw [if_neg h3]
          simp only [true_iff]
          refine ⟨by omega, by omega, c, src, imp, rfl, ?_⟩
          rcases hb : (trimChars c.toList).isEmpty with _ | _
          · rfl
          · exact absurd hb h3

theorem summaryIngestion_vector_eq (wm : ℕ) (messages : List ChatMessage)
    (outcome : SummarizeOutcome) (ve : Bool) :
    (summaryIngestion wm messages outcome ve).vectorInsertAttempted =
      ((summaryIngestion wm messages outcome ve).filePersisted && ve) := by
  by_cases h1 : messages.length ≤ wm
  · rw [summaryIngestion_eval_stale wm messages outcome ve h1]; rfl
  · by_cases h2 : (messages.drop wm).countP (fun m => decide (m.role = "user")) <
        SUMMARY_TRIGGER_USER_TURNS
    · rw [summaryIngestion_eval_few wm messages outcome ve h1 h2]; rfl
    · rw [summaryIngestion_eval_main wm messages outcome ve h1 h2]
      cases outcome with
      | failed => rfl
      | nothing => rfl
      | produced c src imp =>
        dsimp only
        by_cases h3 : (trimChars c.toList).isEmpty = true
        · rw [if_pos h3]; rfl
        · rw [if_neg h3]; rfl

theorem summaryIngestion_mono (wm : ℕ) (messages : List ChatMessage)
    (outcome : SummarizeOutcome) (ve : Bool) :
    wm ≤ (summaryIngestion wm messages outcome ve).watermark := by
  rw [summaryIngestion_watermark_eq]
  split
  next h => exact Nat.le_of_lt h.1
  next h => exact le_refl wm

theorem summaryIngestionTrace_mono
    (ops : List (List ChatMessage × SummarizeOutcome × Bool)) :
    ∀ wm : ℕ, wm ≤ summaryIngestionTrace wm ops := by
  induction ops with
  | nil => intro wm; exact le_refl wm
  | cons step rest ih =>
    intro wm
    exact le_trans (summaryIngestion_mono wm step.1 step.2.1 step.2.2) (ih _)

/-- Claim C2 (amended): across any sequence of summarization trigger
invocations for one session the watermark is non-decreasing; an invocation
sets the watermark to the length of its history snapshot exactly when the
snapshot has unsummarized messages with at least 3 user turns and the
summarizer returns successfully (with or without a summary), and leaves it
unchanged otherwise (summarizer failure or too few new user turns); a
produced summary is persisted exactly when its trimmed text is non-empty,
and the vector-store insert is attempted exactly when the file persist
happens and vector memory is enabled. -/
theorem C2_watermark_monotonic (wm : ℕ) (messages : List ChatMessage)
    (outcome : SummarizeOutcome) (vectorEnabled : Bool)
    (ops : List (List ChatMessage × SummarizeOutcome × Bool)) :
    wm ≤ (summaryIngestion wm messages outcome vectorEnabled).watermark
    ∧ wm ≤ summaryIngestionTrace wm ops
    ∧ (summaryIngestion wm messages outcome vectorEnabled).watermark =
        (if wm < messages.length
            ∧ SUMMARY_TRIGGER_USER_TURNS ≤
              (messages.drop wm).countP (fun m => decide (m.role = "user"))
            ∧ outcome ≠ SummarizeOutcome.failed
         then messages.length else wm)
    ∧ ((summaryIngestion wm messages outcome vectorEnabled).filePersisted = true ↔
        (wm < messages.length
          ∧ SUMMARY_TRIGGER_USER_TURNS ≤
            (messages.drop wm).countP (fun m => decide (m.role = "user"))
          ∧ ∃ c src imp, outcome = SummarizeOutcome.produced c src imp
              ∧ (trimChars c.toList).isEmpty = false))
    ∧ (summaryIngestion wm messages outcome vectorEnabled).vectorInsertAttempted =
        ((summaryIngestion wm messages outcome vectorEnabled).filePersisted &&
          vectorEnabled) :=
  ⟨summaryIngestion_mono wm messages outcome vectorEnabled,
   summaryIngestionTrace_mono ops wm,
   summaryIngestion_watermark_eq wm messages outcome vectorEnabled,
   summaryIngestion_file_iff wm messages outcome vectorEnabled,
   summaryIngestion_vector_eq wm messages outcome vectorEnabled⟩

/-- Counterexample to Claim C2 as stated: when the summarizer produces a
summary whose text is whitespace-only, the watermark still advances (0 to 6
here) but nothing is persisted to either store, contradicting the claim
that a produced summary "is then persisted to both stores". -/
theorem C2_watermark_counterexample :
    (summaryIngestion 0
      [{ role := "user", content := "a" }, { role := "assistant", content := "b" },
       { role := "user", content := "c" }, { role := "assistant", content := "d" },
       { role := "user", content := "e" }, { role := "assistant", content := "f" }]
      (SummarizeOutcome.produced " " "chat" 1) true) =
      { watermark := 6, filePersisted := false, vectorInsertAttempted := false } := by
  with_unfolding_all rfl

theorem entryLe_total (a b : String × CacheEntry) :
    entryLe a b = true ∨ entryLe b a = true := by
  unfold entryLe
  rcases Nat.le_total a.2.insertOrder b.2.insertOrder with h | h
  · left; exact decide_eq_true h
  · right; exact decide_eq_true h

theorem entryLe_trans (a b c : String × CacheEntry)
    (h1 : entryLe a b = true) (h2 : entryLe b c = true) : entryLe a c = true := by
  unfold entryLe at h1 h2 ⊢
  rw [decide_eq_true_eq] at h1 h2
  exact decide_eq_true (le_trans h1 h2)

/-- The cache invariant maintained by every insert: distinct keys, all
insert orders bounded by the counter, size within the capacity. -/
def CacheInv (c : EmbeddingCache) : Prop :=
  (c.entries.map (fun p => p.1)).Nodup
  ∧ (∀ p ∈ c.entries, p.2.insertOrder ≤ c.counter)
  ∧ c.entries.length ≤ MAX_CACHE_ENTRIES

theorem evictOldestQuarter_perm (entries : List (String × CacheEntry))
    (hnd : (entries.map (fun p => p.1)).Nodup)
    (h4 : entries.length / 4 ≠ 0) :
    (evictOldestQuarter entries).Perm
      ((sortByLe entryLe entries).drop (entries.length / 4)) := by
  unfold evictOldestQuarter
  rw [if_neg h4]
  exact filter_key_not_in_take_perm (fun p => p.1) entries
    (sortByLe entryLe entries) (entries.length / 4)
    (sortByLe_perm entryLe entries) hnd
theorem evictOldestQuarter_subset {entries : List (String × CacheEntry)}
    {p : String × CacheEntry} (hp : p ∈ evictOldestQuarter entries) :
    p ∈ entries := by
  unfold evictOldestQuarter at hp
  dsimp only at hp
  split at hp
  · exact absurd hp (List.not_mem_nil p)
  · exact (List.mem_filter.mp hp).1

theorem hashMapInsert_keys (entries : List (String × CacheEntry)) (k : String)
    (v : CacheEntry) :
    (hashMapInsert entries k v).map (fun p => p.1) =
      (if entries.any (fun p => decide (p.1 = k)) then entries.map (fun p => p.1)
       else entries.map (fun p => p.1) ++ [k]) := by
  unfold hashMapInsert
  by_cases h : entries.any (fun p => decide (p.1 = k)) = true
  · rw [if_pos h, if_pos h, List.map_map]
    apply List.map_congr_left
    intro p _
    by_cases hp : p.1 = k
    · simp [Function.comp, hp]
    · simp [Function.comp, hp]
  · rw [if_neg h, if_neg h, List.map_append]
    rfl

theorem hashMapInsert_orders (entries : List (String × CacheEntry)) (k : String)
    (v : CacheEntry) {q : String × CacheEntry}
    (hq : q ∈ hashMapInsert entries k v) :
    q.2 = v ∨ q ∈ entries := by
  unfold hashMapInsert at hq
  split at hq
  · rcases List.mem_map.mp hq with ⟨p, hp, hpq⟩
    by_cases hk : p.1 = k
    · rw [if_pos hk] at hpq
      left; rw [← hpq]
    · rw [if_neg hk] at hpq
      right; rw [← hpq]; exact hp
  · rcases List.mem_append.mp hq with h | h
    · right; exact h
    · left
      rw [List.mem_singleton.mp h]

theorem hashMapInsert_length (entries : List (String × CacheEntry)) (k : String)
    (v : CacheEntry) :
    (hashMapInsert entries k v).length ≤ entries.length + 1 := by
  unfold hashMapInsert
  split
  · rw [List.length_map]; omega
  · rw [List.length_append]; simp

theorem cacheInsert_inv {c : EmbeddingCache} (hinv : CacheInv c)
    (key : String) (emb : List ℚ) : CacheInv (cacheInsert c key emb) := by
  obtain ⟨hnd, hord, hlen⟩ := hinv
  have hmain : ∀ base : List (String × CacheEntry),
      (base.map (fun p => p.1)).Nodup →
      (∀ p ∈ base, p ∈ c.entries) →
      base.length + 1 ≤ MAX_CACHE_ENTRIES →
      CacheInv { entries := hashMapInsert base key ⟨emb, c.counter + 1⟩,
                 counter := c.counter + 1 } := by
    intro base hbnd hbsub hblen
    refine ⟨?_, ?_, ?_⟩
    · dsimp only
      rw [hashMapInsert_keys]
      split
      · exact hbnd
      next hnew =>
        rw [List.nodup_append]
        refine ⟨hbnd, List.nodup_singleton key, ?_⟩
        intro a ha hk
        rw [List.mem_singleton.mp hk] at ha
        rcases List.mem_map.mp ha with ⟨p, hp, hpk⟩
        exact hnew (List.any_eq_true.mpr ⟨p, hp, decide_eq_true hpk⟩)
    · intro p hp
      dsimp only at hp ⊢
      rcases hashMapInsert_orders base key _ hp with hv | hold
      · rw [hv]
      · exact le_trans (hord p (hbsub p hold)) (by omega)
    · dsimp only
      exact le_trans (hashMapInsert_length base key _) hblen
  by_cases hcap : MAX_CACHE_ENTRIES ≤ c.entries.length
  · have hres : cacheInsert c key emb =
        { entries := hashMapInsert (evictOldestQuarter c.entries) key
            ⟨emb, c.counter + 1⟩,
          counter := c.counter + 1 } := by
      unfold cacheInsert
      dsimp only
      rw [if_pos hcap]
    rw [hres]
    have hlen512 : c.entries.length = MAX_CACHE_ENTRIES := by omega
    have h4 : c.entries.length / 4 ≠ 0 := by rw [hlen512]; decide
    have hperm := evictOldestQuarter_perm c.entries hnd h4
    apply hmain
    · have hnds : ((sortByLe entryLe c.entries).map (fun p => p.1)).Nodup :=
        (((sortByLe_perm entryLe c.entries).map (fun p => p.1)).nodup_iff).mpr hnd
      have hsub : List.Sublist
          (((sortByLe entryLe c.entries).drop (c.entries.length / 4)).map
            (fun p => p.1))
          ((sortByLe entryLe c.entries).map (fun p => p.1)) :=
        (List.drop_sublist _ _).map _
      exact ((hperm.map (fun p => p.1)).nodup_iff).mpr (hsub.nodup hnds)
    · exact fun p hp => evictOldestQuarter_subset hp
    · have hle := hperm.length_eq
      rw [List.length_drop, (sortByLe_perm entryLe c.entries).length_eq] at hle
      rw [hle, hlen512]
      decide
  · have hres : cacheInsert c key emb =
        { entries := hashMapInsert c.entries key ⟨emb, c.counter + 1⟩,
          counter := c.counter + 1 } := by
      unfold cacheInsert
      dsimp only
      rw [if_neg hcap]
    rw [hres]
    apply hmain c.entries hnd (fun p hp => hp)
    unfold MAX_CACHE_ENTRIES at *
    omega

theorem cacheNew_inv : CacheInv cacheNew :=
  ⟨List.nodup_nil, fun p hp => absurd hp (List.not_mem_nil p), by decide⟩

theorem cacheRun_inv (ops : List (String × List ℚ)) : CacheInv (cacheRun ops) := by
  have hgen : ∀ (l : List (String × List ℚ)) (c : EmbeddingCache), CacheInv c →
      CacheInv (l.foldl (fun c op => cacheInsert c op.1 op.2) c) := by
    intro l
    induction l with
    | nil => intro c hc; exact hc
    | cons op rest ih =>
      intro c hc
      exact ih (cacheInsert c op.1 op.2) (cacheInsert_inv hc op.1 op.2)
  exact hgen ops cacheNew cacheNew_inv

/-- Claim C6: over any sequence of inserts from a fresh cache the number of
entries never exceeds `MAX_CACHE_ENTRIES = 512`; an insert at capacity first
evicts exactly `512 / 4 = 128` entries — those with the smallest
`insert_order` — before inserting (and `evict_oldest_quarter` clears the
whole map when `len / 4 = 0`); every insert bumps the monotonic counter, and
the new entry's `insert_order` strictly exceeds every pre-existing one. -/
theorem C6_cache_capacity (ops : List (String × List ℚ)) (key : String)
    (emb : List ℚ) :
    (cacheRun ops).entries.length ≤ MAX_CACHE_ENTRIES
    ∧ (cacheInsert (cacheRun ops) key emb).entries.length ≤ MAX_CACHE_ENTRIES
    ∧ (cacheInsert (cacheRun ops) key emb).counter = (cacheRun ops).counter + 1
    ∧ (∀ p ∈ (cacheRun ops).entries,
        p.2.insertOrder < (cacheInsert (cacheRun ops) key emb).counter)
    ∧ (∀ entries : List (String × CacheEntry), entries.length / 4 = 0 →
        evictOldestQuarter entries = [])
    ∧ ((cacheRun ops).entries.length = MAX_CACHE_ENTRIES →
        (evictOldestQuarter (cacheRun ops).entries).length = 384
        ∧ (∀ p ∈ (cacheRun ops).entries,
            p ∉ evictOldestQuarter (cacheRun ops).entries →
            ∀ q ∈ evictOldestQuarter (cacheRun ops).entries,
              p.2.insertOrder ≤ q.2.insertOrder)
        ∧ (cacheInsert (cacheRun ops) key emb).entries =
            hashMapInsert (evictOldestQuarter (cacheRun ops).entries) key
              ⟨emb, (cacheRun ops).counter + 1⟩) := by
  obtain ⟨hnd, hord, hlen⟩ := cacheRun_inv ops
  obtain ⟨hnd2, hord2, hlen2⟩ := cacheInsert_inv (cacheRun_inv ops) key emb
  refine ⟨hlen, hlen2, rfl, ?_, ?_, ?_⟩
  · intro p hp
    have hctr : (cacheInsert (cacheRun ops) key emb).counter =
        (cacheRun ops).counter + 1 := rfl
    rw [hctr]
    exact Nat.lt_succ_of_le (hord p hp)
  · intro entries h4
    unfold evictOldestQuarter
    rw [if_pos h4]
  · intro hfull
    set c := cacheRun ops with hc
    have h4 : c.entries.length / 4 ≠ 0 := by rw [hfull]; decide
    have hperm := evictOldestQuarter_perm c.entries hnd h4
    have hsortlen : (sortByLe entryLe c.entries).length = MAX_CACHE_ENTRIES := by
      rw [(sortByLe_perm entryLe c.entries).length_eq, hfull]
    refine ⟨?_, ?_, ?_⟩
    · rw [hperm.length_eq, List.length_drop, hsortlen, hfull]
      decide
    · intro p hp hpnot q hq
      have hpvict : p.1 ∈ ((sortByLe entryLe c.entries).take
          (c.entries.length / 4)).map (fun r => r.1) := by
        by_contra hcon
        apply hpnot
        unfold evictOldestQuarter
        rw [if_neg h4]
        exact List.mem_filter.mpr ⟨hp, decide_eq_true hcon⟩
      rcases List.mem_map.mp hpvict with ⟨v, hv, hvp⟩
      have hvmem : v ∈ c.entries :=
        (sortByLe_perm entryLe c.entries).subset (List.mem_of_mem_take hv)
      have hvpeq : v = p :=
        List.inj_on_of_nodup_map hnd hvmem hp hvp
      have hqdrop : q ∈ (sortByLe entryLe c.entries).drop
          (c.entries.length / 4) := hperm.subset hq
      have hpair := sortByLe_pairwise entryLe entryLe_total entryLe_trans c.entries
      rw [← List.take_append_drop (c.entries.length / 4)
        (sortByLe entryLe c.entries)] at hpair
      have hrel := (List.pairwise_append.mp hpair).2.2 v hv q hqdrop
      unfold entryLe at hrel
      rw [decide_eq_true_eq] at hrel
      rw [← hvpeq]
      exact hrel
    · have hres : cacheInsert c key emb =
          { entries := hashMapInsert (evictOldestQuarter c.entries) key
              ⟨emb, c.counter + 1⟩,
            counter := c.counter + 1 } := by
        unfold cacheInsert
        dsimp only
        rw [if_pos (le_of_eq hfull.symm)]
      rw [hres]

/-- Witness for C6 at concrete inputs: a small run stays within capacity
and a short list is cleared by the eviction routine. -/
theorem C6_cache_capacity_witness :
    (cacheRun [("a", [1]), ("b", [2])]).entries.length ≤ MAX_CACHE_ENTRIES ∧
    evictOldestQuarter [("a", ⟨[1], 1⟩)] = [] :=
  ⟨(C6_cache_capacity [("a", [1]), ("b", [2])] "c" [3]).1,
   (C6_cache_capacity [] "c" [3]).2.2.2.2.1 [("a", ⟨[1], 1⟩)] (by decide)⟩

theorem trimFrontAux_spec (fuel : ℕ) :
    ∀ (l : List Char) (limit : ℕ), l.length ≤ fuel →
      ∃ k, trimFrontAux fuel l limit = l.drop k
        ∧ ((trimFrontAux fuel l limit).length ≤ limit ∨
           '\n' ∉ trimFrontAux fuel l limit) := by
  induction fuel with
  | zero =>
    intro l limit hl
    have hnil : l = [] := List.eq_nil_of_length_eq_zero (by omega)
    subst hnil
    exact ⟨0, rfl, Or.inl (Nat.zero_le limit)⟩
  | succ fuel ih =>
    intro l limit hl
    unfold trimFrontAux
    by_cases hlim : limit < l.length
    · rw [if_pos hlim]
      rcases hf : findSub l ['\n'] with _ | pos
      · exact ⟨0, rfl, Or.inr (findSub_eq_none_single hf)⟩
      · obtain ⟨hocc, hple⟩ := findSub_eq_some hf
        have hbnd : pos + 1 ≤ l.length := by
          rcases occursAt_length hocc with hb | hb
          · simpa using hb
          · omega
        have hrec : (l.drop (pos + 1)).length ≤ fuel := by
          rw [List.length_drop]; omega
        obtain ⟨k, heq, hpost⟩ := ih (l.drop (pos + 1)) limit hrec
        refine ⟨pos + 1 + k, ?_, hpost⟩
        show trimFrontAux fuel (l.drop (pos + 1)) limit = l.drop (pos + 1 + k)
        rw [heq, List.drop_drop]
    · rw [if_neg hlim]
      exact ⟨0, rfl, Or.inl (by omega)⟩

theorem trimFront_spec (l : List Char) (limit : ℕ) :
    ∃ k, trimFront l limit = l.drop k
      ∧ ((trimFront l limit).length ≤ limit ∨ '\n' ∉ trimFront l limit) :=
  trimFrontAux_spec l.length l limit (le_refl _)

/-- The tail of the document after the located section header, as
`append_section_entries` slices it. -/
def sectionRest (existing sectionHeader : List Char) (p : ℕ) : List Char :=
  existing.drop (p + sectionHeader.length)

/-- Index of the end of the located section inside `sectionRest` (the next
`"\n## "` heading, or the end of the document). -/
def sectionEndOf (existing sectionHeader : List Char) (p : ℕ) : ℕ :=
  (findSub (sectionRest existing sectionHeader p) sectionDelim).getD
    (sectionRest existing sectionHeader p).length

/-- The located section's body with the new entry lines appended, before
any budget trimming (`combined` in `append_section_entries`). -/
def combinedBody (existing sectionHeader : List Char)
    (entries : List (List Char)) (p : ℕ) : List Char :=
  let body := ((sectionRest existing sectionHeader p).take
    (sectionEndOf existing sectionHeader p)).dropWhile
      (fun c => decide (c = '\n'))
  if body.isEmpty then List.intercalate ['\n'] entries
  else body ++ '\n' :: List.intercalate ['\n'] entries

/-- Claim C8 (amended): `append_section_entries` touches at most one
section.  When the header is found at position `p`, the result keeps every
character up to and including the header and every character from the next
`"\n## "` heading onward byte-for-byte, with the new section body in
between; with a size budget the body is the old body plus new lines with
whole lines dropped from the front until it fits the budget or no newline
remains (a single over-long line is kept); without a budget it is kept
whole.  When the header is absent, the document is preserved as a prefix
and a fresh section is appended at the end. -/
theorem C8_append_section_frame (existing sectionHeader : List Char)
    (entries : List (List Char)) (limitOpt : Option ℕ)
    (hne : entries.isEmpty = false) :
    (∀ p, findSub existing sectionHeader = some p →
      ∃ body,
        appendSectionEntries existing sectionHeader entries limitOpt =
          existing.take (p + sectionHeader.length) ++ '\n' ::
            (body ++ (sectionRest existing sectionHeader p).drop
              (sectionEndOf existing sectionHeader p))
        ∧ (∃ k, body = (combinedBody existing sectionHeader entries p).drop k)
        ∧ (∀ L, limitOpt = some L → body.length ≤ L ∨ '\n' ∉ body)
        ∧ (limitOpt = none →
            body = combinedBody existing sectionHeader entries p))
    ∧ (findSub existing sectionHeader = none →
        existing <+: appendSectionEntries existing sectionHeader entries limitOpt
        ∧ ∃ pad, (pad = [] ∨ pad = ['\n']) ∧
          appendSectionEntries existing sectionHeader entries limitOpt =
            existing ++ (pad ++ '\n' ::
              (sectionHeader ++ '\n' ::
                (List.intercalate ['\n'] entries ++ ['\n'])))) := by
  constructor
  · intro p hfind
    refine ⟨(match limitOpt with
      | some L => trimFront (combinedBody existing sectionHeader entries p) L
      | none => combinedBody existing sectionHeader entries p),
      ?_, ?_, ?_, ?_⟩
    · unfold appendSectionEntries
      rw [if_neg (by rw [hne]; exact Bool.false_ne_true)]
      dsimp only
      rw [hfind]
      unfold combinedBody sectionRest sectionEndOf
      rcases limitOpt with _ | L
      · rfl
      · rfl
    · rcases limitOpt with _ | L
      · exact ⟨0, rfl⟩
      · obtain ⟨k, heq, _⟩ :=
          trimFront_spec (combinedBody existing sectionHeader entries p) L
        exact ⟨k, heq⟩
    · intro L hL
      subst hL
      obtain ⟨k, _, hpost⟩ :=
        trimFront_spec (combinedBody existing sectionHeader entries p) L
      exact hpost
    · intro h0
      subst h0
      rfl
  · intro hfind
    unfold appendSectionEntries
    rw [if_neg (by rw [hne]; exact Bool.false_ne_true)]
    dsimp only
    rw [hfind]
    dsimp only
    by_cases hb : (¬ existing.isEmpty = true ∧ existing.getLast? ≠ some '\n')
    · rw [if_pos hb]
      refine ⟨⟨_, by rw [List.append_assoc]⟩, ['\n'], Or.inr rfl, ?_⟩
      rw [List.append_assoc]
    · rw [if_neg hb]
      exact ⟨⟨_, rfl⟩, [], Or.inl rfl, rfl⟩

/-- Counterexample to Claim C8 as stated: with budget 10, appending a
16-character entry leaves a section body of 16 > 10 characters, because the
trimming loop stops when no newline remains rather than when the body is
within budget. -/
theorem C8_append_section_counterexample :
    (sectionBodyOf
      (appendSectionEntries "## Extracted Notes\nshort".toList
        "## Extracted Notes".toList ["aaaaaaaaaaaaaaaa".toList] (some 10))
      "## Extracted Notes".toList).map List.length = some 16 ∧ 10 < 16 :=
  ⟨by decide, by decide⟩

/-- Witness for C8 at a concrete input: appending to a missing section
creates it at the end of the document. -/
theorem C8_append_section_frame_witness :
    "# Memory\n".toList <+:
      appendSectionEntries "# Memory\n".toList "## Remembered Facts".toList
        ["- [2026-10-12] User likes tea".toList] none :=
  ((C8_append_section_frame "# Memory\n".toList "## Remembered Facts".toList
      ["- [2026-10-12] User likes tea".toList] none (by decide)).2
    (by decide)).1

theorem rowLe_total (a b : MemoryItem) : rowLe a b = true ∨ rowLe b a = true := by
  unfold rowLe
  rcases lt_trichotomy a.priority b.priority with h | h | h
  · left; exact decide_eq_true (Or.inl h)
  · rcases Nat.le_total a.updatedAt b.updatedAt with h2 | h2
    · left; exact decide_eq_true (Or.inr ⟨h, h2⟩)
    · right; exact decide_eq_true (Or.inr ⟨h.symm, h2⟩)
  · right; exact decide_eq_true (Or.inl h)

theorem rowLe_trans (a b c : MemoryItem) (h1 : rowLe a b = true)
    (h2 : rowLe b c = true) : rowLe a c = true := by
  unfold rowLe at h1 h2 ⊢
  rw [decide_eq_true_eq] at h1 h2
  apply decide_eq_true
  rcases h1 with h1 | ⟨h1e, h1u⟩
  · rcases h2 with h2 | ⟨h2e, h2u⟩
    · exact Or.inl (lt_trans h1 h2)
    · exact Or.inl (h2e ▸ h1)
  · rcases h2 with h2 | ⟨h2e, h2u⟩
    · exact Or.inl (h1e ▸ h2)
    · exact Or.inr ⟨h1e.trans h2e, le_trans h1u h2u⟩

theorem rowLe_not_rowLt {a b : MemoryItem} (h : rowLe a b = true) :
    ¬ rowLt b a := by
  unfold rowLe at h
  rw [decide_eq_true_eq] at h
  unfold rowLt
  rintro (hlt | ⟨hle, hlu⟩)
  · rcases h with h | ⟨he, _⟩
    · exact absurd hlt (lt_asymm h)
    · exact absurd hlt (he ▸ lt_irrefl _)
  · rcases h with h | ⟨he, hu⟩
    · exact absurd h (hle ▸ lt_irrefl _)
    · omega

/-- Full characterization of `prune_if_needed` on a table whose ids are
distinct: the namespace keeps `min count max` rows, nothing happens when
within bounds, exactly `count - max` rows disappear when over, every
deleted row is in the namespace, and no surviving namespace row has a
strictly lower `(priority, updated_at)` pair than a deleted row. -/
theorem pruneIfNeeded_spec (store : List MemoryItem) (ns : String) (m : ℕ)
    (hnd : (store.map (fun r => r.id)).Nodup) :
    ((pruneIfNeeded store ns m).filter
        (fun r => decide (r.nspace = ns))).length =
      min (store.filter (fun r => decide (r.nspace = ns))).length m
    ∧ ((store.filter (fun r => decide (r.nspace = ns))).length ≤ m →
        pruneIfNeeded store ns m = store)
    ∧ (m < (store.filter (fun r => decide (r.nspace = ns))).length →
        (pruneIfNeeded store ns m).length +
          ((store.filter (fun r => decide (r.nspace = ns))).length - m) =
          store.length)
    ∧ (∀ d ∈ store, d ∉ pruneIfNeeded store ns m →
        d.nspace = ns ∧
        ∀ r ∈ pruneIfNeeded store ns m, r.nspace = ns → ¬ rowLt r d) := by
  by_cases hm : m < (store.filter (fun r => decide (r.nspace = ns))).length
  case neg =>
    have heq : pruneIfNeeded store ns m = store := by
      unfold pruneIfNeeded
      rw [if_neg hm]
    rw [heq]
    refine ⟨by omega, fun _ => rfl, fun hcon => absurd hcon hm, ?_⟩
    intro d hd hdn
    exact absurd hd hdn
  case pos =>
    have heq : pruneIfNeeded store ns m =
        store.filter (fun r => decide (¬ (r.id ∈
          (((sortByLe rowLe (store.filter (fun r => decide (r.nspace = ns)))).take
            ((store.filter (fun r => decide (r.nspace = ns))).length - m)).map
              (fun r => r.id)) ∧ r.nspace = ns))) := by
      unfold pruneIfNeeded
      rw [if_pos hm]
    have hndns : ((store.filter (fun r => decide (r.nspace = ns))).map
        (fun r => r.id)).Nodup :=
      (((List.filter_sublist store).map (fun r => r.id)).nodup hnd)
    have hperm' :
        ((store.filter (fun r => decide (r.nspace = ns))).filter
          (fun x => decide ((fun r => r.id) x ∉
            ((sortByLe rowLe (store.filter (fun r => decide (r.nspace = ns)))).take
              ((store.filter (fun r => decide (r.nspace = ns))).length - m)).map
              (fun r => r.id)))).Perm
        ((sortByLe rowLe (store.filter (fun r => decide (r.nspace = ns)))).drop
          ((store.filter (fun r => decide (r.nspace = ns))).length - m)) :=
      filter_key_not_in_take_perm (fun r => r.id)
        (store.filter (fun r => decide (r.nspace = ns)))
        (sortByLe rowLe (store.filter (fun r => decide (r.nspace = ns))))
        ((store.filter (fun r => decide (r.nspace = ns))).length - m)
        (sortByLe_perm rowLe (store.filter (fun r => decide (r.nspace = ns))))
        hndns
    have hnsfilter : (pruneIfNeeded store ns m).filter
        (fun r => decide (r.nspace = ns)) =
        (store.filter (fun r => decide (r.nspace = ns))).filter
          (fun x => decide ((fun r : MemoryItem => r.id) x ∉
            ((sortByLe rowLe (store.filter (fun r => decide (r.nspace = ns)))).take
              ((store.filter (fun r => decide (r.nspace = ns))).length - m)).map
              (fun r => r.id))) := by
      rw [heq, List.filter_filter, List.filter_filter]
      apply List.filter_congr
      intro a _
      by_cases han : a.nspace = ns
      · by_cases hav : a.id ∈
            ((sortByLe rowLe (store.filter (fun r => decide (r.nspace = ns)))).take
              ((store.filter (fun r => decide (r.nspace = ns))).length - m)).map
              (fun r => r.id)
        · simp [han, hav]
        · simp [han, hav]
      · simp [han]
    have hnonns : (pruneIfNeeded store ns m).filter
        (fun r => decide (¬ r.nspace = ns)) =
        store.filter (fun r => decide (¬ r.nspace = ns)) := by
      rw [heq, List.filter_filter]
      apply List.filter_congr
      intro a _
      by_cases han : a.nspace = ns
      · simp [han]
      · simp [han]
    have hsortlen :
        (sortByLe rowLe (store.filter (fun r => decide (r.nspace = ns)))).length =
        (store.filter (fun r => decide (r.nspace = ns))).length :=
      (sortByLe_perm rowLe _).length_eq
    have hnslen : ((pruneIfNeeded store ns m).filter
        (fun r => decide (r.nspace = ns))).length = m := by
      rw [hnsfilter, hperm'.length_eq, List.length_drop, hsortlen]
      omega
    refine ⟨by omega, fun hcon => by omega, ?_, ?_⟩
    · intro _
      have hsplitgen : ∀ l : List MemoryItem, l.length =
          (l.filter (fun r => decide (r.nspace = ns))).length +
          (l.filter (fun r => decide (¬ r.nspace = ns))).length := by
        intro l
        rw [← List.countP_eq_length_filter, ← List.countP_eq_length_filter,
          List.length_eq_countP_add_countP
            (fun r : MemoryItem => decide (r.nspace = ns)) l]
        congr 1
        apply List.countP_congr
        intro a _
        by_cases han : a.nspace = ns <;> simp [han]
      have hsplit1 := hsplitgen store
      have hsplit2 := hsplitgen (pruneIfNeeded store ns m)
      rw [hnslen, hnonns] at hsplit2
      omega
    · intro d hd hdnot
      have hkeep : ¬ (decide (¬ (d.id ∈
          (((sortByLe rowLe (store.filter (fun r => decide (r.nspace = ns)))).take
            ((store.filter (fun r => decide (r.nspace = ns))).length - m)).map
              (fun r => r.id)) ∧ d.nspace = ns)) = true) := by
        intro hcon
        exact hdnot (heq ▸ List.mem_filter.mpr ⟨hd, hcon⟩)
      rw [decide_eq_true_eq] at hkeep
      rw [not_not] at hkeep
      obtain ⟨hvict, hdns⟩ := hkeep
      refine ⟨hdns, ?_⟩
      intro r hr hrns
      rcases List.mem_map.mp hvict with ⟨v, hv, hvd⟩
      have hvmem : v ∈ store.filter (fun r => decide (r.nspace = ns)) :=
        (sortByLe_perm rowLe _).subset (List.mem_of_mem_take hv)
      have hvstore : v ∈ store := (List.mem_filter.mp hvmem).1
      have hvd2 : v = d := List.inj_on_of_nodup_map hnd hvstore hd hvd
      have hrmem : r ∈ (sortByLe rowLe
          (store.filter (fun r => decide (r.nspace = ns)))).drop
            ((store.filter (fun r => decide (r.nspace = ns))).length - m) := by
        apply hperm'.subset
        rw [← hnsfilter]
        exact List.mem_filter.mpr ⟨hr, decide_eq_true hrns⟩
      have hpair := sortByLe_pairwise rowLe rowLe_total rowLe_trans
        (store.filter (fun r => decide (r.nspace = ns)))
      rw [← List.take_append_drop
        ((store.filter (fun r => decide (r.nspace = ns))).length - m)
        (sortByLe rowLe (store.filter (fun r => decide (r.nspace = ns))))] at hpair
      have hrel := (List.pairwise_append.mp hpair).2.2 v hv r hrmem
      exact hvd2 ▸ rowLe_not_rowLt hrel

theorem pruneIfNeeded_noop (store : List MemoryItem) (ns : String) (m : ℕ)
    (h : (store.filter (fun r => decide (r.nspace = ns))).length ≤ m) :
    pruneIfNeeded store ns m = store := by
  unfold pruneIfNeeded
  rw [if_neg (by omega)]

theorem pruneIfNeeded_subset {store : List MemoryItem} {ns : String} {m : ℕ}
    {r : MemoryItem} (hr : r ∈ pruneIfNeeded store ns m) : r ∈ store := by
  unfold pruneIfNeeded at hr
  dsimp only at hr
  split at hr
  · exact (List.mem_filter.mp hr).1
  · exact hr

/-- The row inserted by a successful `add`. -/
def mkAddRow (content : List Char) (metadata : List (String × MetaVal))
    (now : ℕ) (newId : String) (ns : String) (emb : List ℚ) : MemoryItem :=
  { id := newId, content := trimChars content, embedding := emb,
    metadata := metadata, createdAt := now, updatedAt := now, accessCount := 0,
    priority := clampQ (metaImportance metadata * 0.4 + 0.3) 0 1, nspace := ns }

theorem addMem_ok_eval (store : List MemoryItem) (content : List Char)
    (metadata : List (String × MetaVal)) (nsOpt : Option String)
    (precomputed : Option (List ℚ)) (selfNs : String) (maxMemories : ℕ)
    (now : ℕ) (newId : String) (embedF : List Char → Except String (List ℚ))
    (ns : String) (emb : List ℚ)
    (h1 : (trimChars content).isEmpty = false)
    (h2 : (trimChars content).length ≤ MAX_CONTENT_LENGTH)
    (hval : validateNamespace (nsOpt.getD selfNs) = Except.ok ns)
    (hemb : embedResolve precomputed embedF (trimChars content) = Except.ok emb)
    (hfresh : ∀ r ∈ store, r.id ≠ newId) :
    addMem store content metadata nsOpt precomputed selfNs maxMemories now
        newId embedF =
      Except.ok (mkAddRow content metadata now newId ns emb,
        pruneIfNeeded (store ++ [mkAddRow content metadata now newId ns emb])
          ns maxMemories) := by
  have hany : store.any (fun r => decide (r.id = newId)) = false := by
    rw [List.any_eq_false]
    intro r hr
    simpa using hfresh r hr
  unfold addMem
  dsimp only
  rw [if_neg (by rw [h1]; exact Bool.false_ne_true)]
  rw [if_neg (by omega)]
  rw [hval]
  dsimp only
  rw [hemb]
  dsimp only
  rw [if_neg (by rw [hany]; exact Bool.false_ne_true)]
  rfl

theorem addMem_ok_inv (store : List MemoryItem) (content : List Char)
    (metadata : List (String × MetaVal)) (nsOpt : Option String)
    (precomputed : Option (List ℚ)) (selfNs : String) (maxMemories : ℕ)
    (now : ℕ) (newId : String) (embedF : List Char → Except String (List ℚ))
    (item : MemoryItem) (store₂ : List MemoryItem)
    (hok : addMem store content metadata nsOpt precomputed selfNs maxMemories
      now newId embedF = Except.ok (item, store₂)) :
    (trimChars content).isEmpty = false
    ∧ (trimChars content).length ≤ MAX_CONTENT_LENGTH
    ∧ (∀ r ∈ store, r.id ≠ newId)
    ∧ item.id = newId
    ∧ item.content = trimChars content
    ∧ item.metadata = metadata
    ∧ item.createdAt = now
    ∧ item.updatedAt = now
    ∧ item.accessCount = 0
    ∧ item.priority = clampQ (metaImportance metadata * 0.4 + 0.3) 0 1
    ∧ validateNamespace (nsOpt.getD selfNs) = Except.ok item.nspace
    ∧ store₂ = pruneIfNeeded (store ++ [item]) item.nspace maxMemories := by
  unfold addMem at hok
  dsimp only at hok
  split at hok
  · exact absurd hok (by simp)
  next h1 =>
    split at hok
    · exact absurd hok (by simp)
    next h2 =>
      split at hok
      next e heq => exact absurd hok (by simp)
      next ns heq =>
        split at hok
        next e heq2 => exact absurd hok (by simp)
        next emb heq2 =>
          split at hok
          next h3 => exact absurd hok (by simp)
          next h3 =>
            injection hok with hok
            obtain ⟨hitem, hstore⟩ := Prod.mk.inj hok
            subst hitem
            refine ⟨?_, by omega, ?_, rfl, rfl, rfl, rfl, rfl, rfl, rfl, heq,
              hstore.symm⟩
            · rcases hb : (trimChars content).isEmpty with _ | _
              · rfl
              · exact absurd hb h1
            · intro r hr hrid
              exact h3 (List.any_eq_true.mpr ⟨r, hr, decide_eq_true hrid⟩)

/-- Claim C1: after every successful `add` into a namespace (on a table
with distinct ids), the namespace holds at most `max_memories` rows; when
the insert pushes the count over the limit exactly `count - max_memories`
rows are deleted, all from that namespace, chosen lowest first by
`(priority ASC, updated_at ASC)`, so no surviving namespace row has a
strictly lower `(priority, updated_at)` pair than any deleted row; within
bounds the table is just extended by the new row. -/
theorem C1_add_prunes_capacity (store : List MemoryItem) (content : List Char)
    (metadata : List (String × MetaVal)) (nsOpt : Option String)
    (precomputed : Option (List ℚ)) (selfNs : String) (maxMemories : ℕ)
    (now : ℕ) (newId : String) (embedF : List Char → Except String (List ℚ))
    (item : MemoryItem) (store₂ : List MemoryItem)
    (hnd : (store.map (fun r => r.id)).Nodup)
    (hok : addMem store content metadata nsOpt precomputed selfNs maxMemories
      now newId embedF = Except.ok (item, store₂)) :
    ((store₂.filter (fun r => decide (r.nspace = item.nspace))).length ≤
      maxMemories)
    ∧ (maxMemories <
        (store.filter (fun r => decide (r.nspace = item.nspace))).length + 1 →
        ((store₂.filter (fun r => decide (r.nspace = item.nspace))).length =
          maxMemories
        ∧ store₂.length +
            ((store.filter (fun r => decide (r.nspace = item.nspace))).length +
              1 - maxMemories) = store.length + 1))
    ∧ ((store.filter (fun r => decide (r.nspace = item.nspace))).length + 1 ≤
        maxMemories → store₂ = store ++ [item])
    ∧ (∀ d ∈ store ++ [item], d ∉ store₂ →
        d.nspace = item.nspace ∧
        ∀ r ∈ store₂, r.nspace = item.nspace → ¬ rowLt r d) := by
  obtain ⟨-, -, hfresh, hid, -, -, -, -, -, -, -, hstore⟩ :=
    addMem_ok_inv store content metadata nsOpt precomputed selfNs maxMemories
      now newId embedF item store₂ hok
  have hnd1 : ((store ++ [item]).map (fun r => r.id)).Nodup := by
    rw [List.map_append]
    rw [List.nodup_append]
    refine ⟨hnd, by simp, ?_⟩
    intro a ha hb
    simp only [List.map_cons, List.map_nil, List.mem_singleton] at hb
    rcases List.mem_map.mp ha with ⟨r, hr, hra⟩
    rw [hb, hid] at hra
    exact hfresh r hr hra
  obtain ⟨c1, c2, c3, c4⟩ :=
    pruneIfNeeded_spec (store ++ [item]) item.nspace maxMemories hnd1
  have hfilter1 : (store ++ [item]).filter
      (fun r => decide (r.nspace = item.nspace)) =
      store.filter (fun r => decide (r.nspace = item.nspace)) ++ [item] := by
    rw [List.filter_append]
    congr 1
    simp
  rw [hstore]
  rw [hfilter1] at c1 c2 c3
  rw [List.length_append, List.length_cons, List.length_nil] at c1 c2 c3
  refine ⟨?_, ?_, ?_, ?_⟩
  · rw [c1]; omega
  · intro hover
    constructor
    · rw [c1]; omega
    · have := c3 (by omega)
      rw [List.length_append, List.length_cons, List.length_nil] at this
      omega
  · intro hunder
    exact c2 (by omega)
  · intro d hd hdnot
    exact c4 d hd (hstore ▸ hdnot)

/-- Witness for C1 at a concrete input: adding a low-priority third row to
a two-row namespace capped at 2 keeps the count at 2 and evictions respect
the (priority, updated_at) order. -/
theorem C1_add_prunes_capacity_witness :
    (((pruneIfNeeded
        ([⟨"a", ['x'], [1], [], 0, 5, 0, 9/10, "default"⟩,
          ⟨"b", ['y'], [1], [], 0, 6, 0, 1/2, "default"⟩] ++
         [mkAddRow ['h', 'i'] [("importance", MetaVal.num 0)] 7 "c" "default" [1]])
        "default" 2).filter
      (fun r => decide (r.nspace = "default"))).length ≤ 2) := by
  have h := C1_add_prunes_capacity
    [⟨"a", ['x'], [1], [], 0, 5, 0, 9/10, "default"⟩,
     ⟨"b", ['y'], [1], [], 0, 6, 0, 1/2, "default"⟩]
    ['h', 'i'] [("importance", MetaVal.num 0)] (some "default") (some [1])
    "default" 2 7 "c" (fun _ => Except.error "no embedder")
    (mkAddRow ['h', 'i'] [("importance", MetaVal.num 0)] 7 "c" "default" [1])
    (pruneIfNeeded
      ([⟨"a", ['x'], [1], [], 0, 5, 0, 9/10, "default"⟩,
        ⟨"b", ['y'], [1], [], 0, 6, 0, 1/2, "default"⟩] ++
       [mkAddRow ['h', 'i'] [("importance", MetaVal.num 0)] 7 "c" "default" [1]])
      "default" 2)
    (by decide) (by with_unfolding_all rfl)
  exact h.1

theorem validateNamespace_ok_idem {ns v : String}
    (h : validateNamespace ns = Except.ok v) :
    validateNamespace v = Except.ok v := by
  unfold validateNamespace at h ⊢
  by_cases h1 : nsValid ns.toList = true
  · rw [if_pos h1] at h
    injection h with h
    subst h
    rw [if_pos h1]
  · rw [if_neg h1] at h
    dsimp only at h
    by_cases h2 : ((ns.toList.map sanitizeChar).take 64).isEmpty = true
    · rw [if_pos h2] at h
      exact absurd h (by simp)
    · rw [if_neg h2] at h
      injection h with h
      subst h
      have htl : (((ns.toList.map sanitizeChar).take 64).asString).toList =
          (ns.toList.map sanitizeChar).take 64 := rfl
      have hv : nsValid (((ns.toList.map sanitizeChar).take 64).asString).toList
          = true := by
        rw [htl]
        unfold nsValid
        rw [decide_eq_true_eq]
        refine ⟨?_, ?_, ?_⟩
        · have hne : (ns.toList.map sanitizeChar).take 64 ≠ [] := by
            intro hcon
            rw [hcon] at h2
            exact h2 rfl
          have := List.length_pos.mpr hne
          omega
        · rw [List.length_take]; omega
        · intro c hc
          rcases List.mem_map.mp (List.mem_of_mem_take hc) with ⟨a, _, rfl⟩
          exact sanitizeChar_allowed a
      rw [if_pos hv]

/-- Claim C4 (amended): when the content trims to a non-empty string of at
most 8192 characters, the namespace validates, an embedding is available,
the id is fresh, and the namespace holds fewer than `max_memories` rows
(so the new row cannot be evicted by the post-insert prune), `add` followed
by `get` with the returned id in the same namespace returns the very item
`add` returned, whose content is the trimmed text, whose metadata is the
one written, and whose priority is `clamp(importance*0.4 + 0.3, 0, 1)`
with importance read from the "importance" metadata key (default 0.5). -/
theorem C4_add_then_get (store : List MemoryItem) (content : List Char)
    (metadata : List (String × MetaVal)) (nsOpt : Option String)
    (precomputed : Option (List ℚ)) (selfNs : String) (maxMemories : ℕ)
    (now : ℕ) (newId : String) (embedF : List Char → Except String (List ℚ))
    (ns : String) (emb : List ℚ)
    (h1 : (trimChars content).isEmpty = false)
    (h2 : (trimChars content).length ≤ MAX_CONTENT_LENGTH)
    (hval : validateNamespace (nsOpt.getD selfNs) = Except.ok ns)
    (hemb : embedResolve precomputed embedF (trimChars content) = Except.ok emb)
    (hfresh : ∀ r ∈ store, r.id ≠ newId)
    (hcap : (store.filter (fun r => decide (r.nspace = ns))).length <
      maxMemories) :
    ∃ item store₂,
      addMem store content metadata nsOpt precomputed selfNs maxMemories now
          newId embedF = Except.ok (item, store₂)
      ∧ getMem store₂ newId (some ns) selfNs = Except.ok (some item)
      ∧ item.content = trimChars content
      ∧ item.metadata = metadata
      ∧ item.priority = clampQ (metaImportance metadata * 0.4 + 0.3) 0 1 := by
  have hrow := addMem_ok_eval store content metadata nsOpt precomputed selfNs
    maxMemories now newId embedF ns emb h1 h2 hval hemb hfresh
  have hnoop : pruneIfNeeded
      (store ++ [mkAddRow content metadata now newId ns emb]) ns maxMemories =
      store ++ [mkAddRow content metadata now newId ns emb] := by
    apply pruneIfNeeded_noop
    rw [List.filter_append]
    rw [List.length_append]
    have : List.filter (fun r => decide (r.nspace = ns))
        [mkAddRow content metadata now newId ns emb] =
        [mkAddRow content metadata now newId ns emb] := by
      simp [mkAddRow]
    rw [this]
    simp only [List.length_cons, List.length_nil]
    omega
  refine ⟨mkAddRow content metadata now newId ns emb,
    pruneIfNeeded (store ++ [mkAddRow content metadata now newId ns emb]) ns
      maxMemories, hrow, ?_, rfl, rfl, rfl⟩
  rw [hnoop]
  unfold getMem
  rw [show (some ns).getD selfNs = ns from rfl, validateNamespace_ok_idem hval]
  have hfind : (store ++ [mkAddRow content metadata now newId ns emb]).find?
      (fun r => decide (r.id = newId ∧ r.nspace = ns)) =
      some (mkAddRow content metadata now newId ns emb) := by
    rw [List.find?_append]
    have hnone : store.find? (fun r => decide (r.id = newId ∧ r.nspace = ns)) =
        none := by
      rw [List.find?_eq_none]
      intro r hr
      simp only [decide_eq_true_eq, not_and]
      intro hcon
      exact absurd hcon (hfresh r hr)
    rw [hnone]
    simp [mkAddRow]
  dsimp only
  rw [hfind]

/-- Counterexample to Claim C4 as stated: in a namespace already at its
capacity of 1 holding a priority-0.9 row, adding importance-0 content
(priority 0.3) succeeds but the prune immediately deletes the new
lowest-priority row, so `get` with the returned id yields `none`, not the
item. -/
theorem C4_add_then_get_counterexample :
    addMem [⟨"a", ['x'], [1], [], 0, 1, 0, 9/10, "default"⟩] ['h', 'i']
        [("importance", MetaVal.num 0)] (some "default") (some [1]) "default"
        1 2 "b" (fun _ => Except.error "no embedder") =
      Except.ok (mkAddRow ['h', 'i'] [("importance", MetaVal.num 0)] 2 "b"
          "default" [1],
        [⟨"a", ['x'], [1], [], 0, 1, 0, 9/10, "default"⟩])
    ∧ getMem [⟨"a", ['x'], [1], [], 0, 1, 0, 9/10, "default"⟩] "b"
        (some "default") "default" = Except.ok none := by
  constructor
  · with_unfolding_all rfl
  · with_unfolding_all rfl

/-- Witness for C4 at a concrete input: add-then-get round-trips when the
namespace is below capacity. -/
theorem C4_add_then_get_witness :
    ∃ item store₂,
      addMem [] ['h', 'i'] [("importance", MetaVal.num 0)] (some "default")
          (some [1]) "default" 5 2 "b" (fun _ => Except.error "no embedder") =
        Except.ok (item, store₂)
      ∧ getMem store₂ "b" (some "default") "default" = Except.ok (some item)
      ∧ item.content = trimChars ['h', 'i']
      ∧ item.metadata = [("importance", MetaVal.num 0)]
      ∧ item.priority =
          clampQ (metaImportance [("importance", MetaVal.num 0)] * 0.4 + 0.3)
            0 1 :=
  C4_add_then_get [] ['h', 'i'] [("importance", MetaVal.num 0)]
    (some "default") (some [1]) "default" 5 2 "b"
    (fun _ => Except.error "no embedder") "default" [1]
    (by decide) (by decide) (by with_unfolding_all rfl)
    (by with_unfolding_all rfl) (fun r hr => absurd hr (List.not_mem_nil r))
    (by decide)

/-- Claim C10: `add` and `update` trim the content before validation and
storage: whitespace-only content fails with "content cannot be empty", the
8192-character bound is checked against the trimmed text, and both the
returned item and every stored row written by the operation carry the
trimmed text. -/
theorem C10_trim_validation (store : List MemoryItem) (content : List Char)
    (metadata : List (String × MetaVal)) (nsOpt : Option String)
    (precomputed : Option (List ℚ)) (selfNs : String) (maxMemories : ℕ)
    (now : ℕ) (newId : String) (memoryId : String)
    (embedF : List Char → Except String (List ℚ)) (sqrtF : ℕ → ℚ) :
    ((trimChars content).isEmpty = true →
      addMem store content metadata nsOpt precomputed selfNs maxMemories now
          newId embedF = Except.error "content cannot be empty"
      ∧ updateMem store memoryId content metadata nsOpt precomputed selfNs now
          embedF sqrtF = Except.error "content cannot be empty")
    ∧ ((trimChars content).isEmpty = false →
        MAX_CONTENT_LENGTH < (trimChars content).length →
        addMem store content metadata nsOpt precomputed selfNs maxMemories now
            newId embedF = Except.error "content exceeds maximum length"
        ∧ updateMem store memoryId content metadata nsOpt precomputed selfNs
            now embedF sqrtF = Except.error "content exceeds maximum length")
    ∧ (∀ item store₂,
        addMem store content metadata nsOpt precomputed selfNs maxMemories now
            newId embedF = Except.ok (item, store₂) →
        item.content = trimChars content
        ∧ ∀ r ∈ store₂, r.id = item.id → r.content = trimChars content)
    ∧ (∀ item store₂,
        updateMem store memoryId content metadata nsOpt precomputed selfNs now
            embedF sqrtF = Except.ok (some (item, store₂)) →
        item.content = trimChars content
        ∧ ∀ r ∈ store₂, r.id = memoryId → r.nspace = item.nspace →
            r.content = trimChars content) := by
  refine ⟨?_, ?_, ?_, ?_⟩
  · intro hempty
    constructor
    · unfold addMem
      dsimp only
      rw [if_pos hempty]
    · unfold updateMem
      dsimp only
      rw [if_pos hempty]
  · intro hne hlong
    constructor
    · unfold addMem
      dsimp only
      rw [if_neg (by rw [hne]; exact Bool.false_ne_true), if_pos hlong]
    · unfold updateMem
      dsimp only
      rw [if_neg (by rw [hne]; exact Bool.false_ne_true), if_pos hlong]
  · intro item store₂ hok
    obtain ⟨-, -, hfresh, hid, hcontent, -, -, -, -, -, -, hstore⟩ :=
      addMem_ok_inv store content metadata nsOpt precomputed selfNs maxMemories
        now newId embedF item store₂ hok
    refine ⟨hcontent, ?_⟩
    intro r hr hrid
    have hr1 : r ∈ store ++ [item] := pruneIfNeeded_subset (hstore ▸ hr)
    rcases List.mem_append.mp hr1 with hrs | hri
    · exact absurd (hid ▸ hrid) (hfresh r hrs)
    · rw [List.mem_singleton.mp hri, hcontent]
  · intro item store₂ hok
    unfold updateMem at hok
    dsimp only at hok
    split at hok
    · exact absurd hok (by simp)
    next h1 =>
      split at hok
      · exact absurd hok (by simp)
      next h2 =>
        split at hok
        next e heq => exact absurd hok (by simp)
        next ns heq =>
          split at hok
          next heq2 =>
            injection hok with hok
            exact absurd hok (by simp)
          next existing heq2 =>
            split at hok
            next e heq3 => exact absurd hok (by simp)
            next emb heq3 =>
              injection hok with hok
              injection hok with hok
              obtain ⟨hitem, hstore⟩ := Prod.mk.inj hok
              subst hitem
              refine ⟨rfl, ?_⟩
              intro r hr hrid hrns
              rw [← hstore] at hr
              rcases List.mem_map.mp hr with ⟨r0, hr0, hr0r⟩
              by_cases hcond : r0.id = memoryId ∧ r0.nspace = ns
              · rw [if_pos hcond] at hr0r
                rw [← hr0r]
              · rw [if_neg hcond] at hr0r
                subst hr0r
                exact absurd ⟨hrid, hrns⟩ hcond

/-- Witness for C10 at concrete inputs: whitespace-only content is
rejected by `add` with the emptiness error. -/
theorem C10_trim_validation_witness :
    addMem [] [' ', ' '] [] (some "default") (some [1]) "default" 10 0 "id0"
        (fun _ => Except.error "no embedder") =
      Except.error "content cannot be empty" :=
  ((C10_trim_validation [] [' ', ' '] [] (some "default") (some [1]) "default"
      10 0 "id0" "m0" (fun _ => Except.error "no embedder") (fun _ => 0)).1
    (by decide)).1

theorem scoredGe_total (a b : MemoryItem × ℚ × ℚ) :
    scoredGe a b = true ∨ scoredGe b a = true := by
  unfold scoredGe
  rcases le_total a.2.2 b.2.2 with h | h
  · right; exact decide_eq_true h
  · left; exact decide_eq_true h

theorem scoredGe_trans (a b c : MemoryItem × ℚ × ℚ)
    (h1 : scoredGe a b = true) (h2 : scoredGe b c = true) :
    scoredGe a c = true := by
  unfold scoredGe at h1 h2 ⊢
  rw [decide_eq_true_eq] at h1 h2
  exact decide_eq_true (le_trans h2 h1)

theorem pairwise_imp_mem {α : Type} {R S : α → α → Prop} :
    ∀ {l : List α}, (∀ a ∈ l, ∀ b ∈ l, R a b → S a b) →
      l.Pairwise R → l.Pairwise S := by
  intro l
  induction l with
  | nil => intro _ _; exact List.Pairwise.nil
  | cons x xs ih =>
    intro h hp
    obtain ⟨hx, hxs⟩ := List.pairwise_cons.mp hp
    refine List.Pairwise.cons ?_
      (ih (fun a ha b hb => h a (List.mem_cons_of_mem x ha) b
        (List.mem_cons_of_mem x hb)) hxs)
    intro b hb
    exact h x (List.mem_cons_self x xs) b (List.mem_cons_of_mem x hb) (hx b hb)

theorem foldl_map_comm {α β : Type} (g : β → α → α) (items : List β) :
    ∀ st : List α, items.foldl (fun s t => s.map (g t)) st =
      st.map (fun r => items.foldl (fun r t => g t r) r) := by
  induction items with
  | nil => intro st; simp
  | cons t ts ih =>
    intro st
    simp only [List.foldl_cons]
    rw [ih (st.map (g t)), List.map_map]
    rfl

theorem bumpSteps_skip (items : List (MemoryItem × ℚ)) :
    ∀ r : MemoryItem, r.id ∉ items.map (fun t => t.1.id) →
      items.foldl (fun r t =>
        if r.id = t.1.id ∧ r.nspace = t.1.nspace then
          { r with accessCount := r.accessCount + 1 } else r) r = r := by
  induction items with
  | nil => intro r _; rfl
  | cons t ts ih =>
    intro r hnot
    simp only [List.map_cons, List.mem_cons] at hnot
    push_neg at hnot
    simp only [List.foldl_cons]
    rw [if_neg (fun hcon => hnot.1 hcon.1)]
    exact ih r hnot.2

theorem bumpSteps_eq (store : List MemoryItem)
    (hnd : (store.map (fun r => r.id)).Nodup) :
    ∀ items : List (MemoryItem × ℚ),
      (∀ t ∈ items, t.1 ∈ store) →
      (items.map (fun t => t.1.id)).Nodup →
      ∀ r ∈ store,
        items.foldl (fun r t =>
          if r.id = t.1.id ∧ r.nspace = t.1.nspace then
            { r with accessCount := r.accessCount + 1 } else r) r =
        (if r.id ∈ items.map (fun t => t.1.id) then
          { r with accessCount := r.accessCount + 1 } else r) := by
  intro items
  induction items with
  | nil => intro _ _ r _; simp
  | cons t ts ih =>
    intro hsub hind r hr
    rw [List.map_cons] at hind
    obtain ⟨hhead, htail⟩ := List.nodup_cons.mp hind
    simp only [List.foldl_cons]
    by_cases hid : r.id = t.1.id
    · have hrt : r = t.1 := List.inj_on_of_nodup_map hnd hr
        (hsub t (List.mem_cons_self t ts)) hid
    
      rw [if_pos ⟨hid, by rw [hrt]⟩]
      rw [bumpSteps_skip ts _ (by
        show r.id ∉ ts.map (fun t => t.1.id)
        rw [hid]
        exact hhead)]
      rw [if_pos (by rw [List.map_cons]; exact List.mem_cons.mpr (Or.inl hid))]
    · rw [if_neg (fun hcon => hid hcon.1)]
      rw [ih (fun t2 ht2 => hsub t2 (List.mem_cons_of_mem t ht2)) htail r hr]
      by_cases hmem : r.id ∈ ts.map (fun t => t.1.id)
      · rw [if_pos hmem,
          if_pos (by rw [List.map_cons]; exact List.mem_cons.mpr (Or.inr hmem))]
      · rw [if_neg hmem, if_neg (by
          rw [List.map_cons]
          intro hcon
          rcases List.mem_cons.mp hcon with h | h
          · exact hid h
          · exact hmem h)]

theorem loadedRows_subset {store : List MemoryItem} {ns : String}
    {r : MemoryItem} (hr : r ∈ loadedRows store ns) :
    r ∈ store ∧ r.nspace = ns := by
  unfold loadedRows at hr
  have h1 := List.mem_of_mem_take hr
  have h2 := (sortByLe_perm (fun a b => rowLe b a) _).subset h1
  have h3 := List.mem_filter.mp h2
  exact ⟨h3.1, by simpa using h3.2⟩

theorem loadedRows_ids_nodup {store : List MemoryItem} {ns : String}
    (hnd : (store.map (fun r => r.id)).Nodup) :
    ((loadedRows store ns).map (fun r => r.id)).Nodup := by
  unfold loadedRows
  have hfil : ((store.filter (fun r => decide (r.nspace = ns))).map
      (fun r => r.id)).Nodup :=
    ((List.filter_sublist store).map _).nodup hnd
  have hsort : ((sortByLe (fun a b => rowLe b a)
      (store.filter (fun r => decide (r.nspace = ns)))).map
      (fun r => r.id)).Nodup :=
    ((sortByLe_perm _ _).map _).nodup_iff.mpr hfil
  exact ((List.take_sublist _ _).map _).nodup hsort

theorem searchScored_fst (store : List MemoryItem) (q : List ℚ)
    (threshold : ℚ) (ns : String) (pw : ℚ) (simF : List ℚ → List ℚ → ℚ) :
    (searchScored store q threshold ns pw simF).map (fun t => t.1) =
      (loadedRows store ns).filter
        (fun item => decide (threshold ≤ simF q item.embedding)) := by
  unfold searchScored
  rw [List.map_map]
  have hcomp : ((fun t : MemoryItem × ℚ × ℚ => t.1) ∘
      (fun item : MemoryItem => (item, simF q item.embedding,
        combinedScore pw (simF q item.embedding) item))) =
      fun item : MemoryItem => item := rfl
  rw [hcomp]
  exact List.map_id' _

theorem searchScored_shape (store : List MemoryItem) (q : List ℚ)
    (threshold : ℚ) (ns : String) (pw : ℚ) (simF : List ℚ → List ℚ → ℚ) :
    ∀ t ∈ searchScored store q threshold ns pw simF,
      t.2.1 = simF q t.1.embedding ∧
      t.2.2 = combinedScore pw t.2.1 t.1 ∧
      t.1 ∈ loadedRows store ns ∧ threshold ≤ t.2.1 := by
  intro t ht
  unfold searchScored at ht
  rcases List.mem_map.mp ht with ⟨item, hitem, rfl⟩
  have hf := List.mem_filter.mp hitem
  exact ⟨rfl, rfl, hf.1, of_decide_eq_true hf.2⟩

theorem searchScored_ids_nodup {store : List MemoryItem} (q : List ℚ)
    (threshold : ℚ) {ns : String} (pw : ℚ) (simF : List ℚ → List ℚ → ℚ)
    (hnd : (store.map (fun r => r.id)).Nodup) :
    ((searchScored store q threshold ns pw simF).map (fun t => t.1.id)).Nodup := by
  unfold searchScored
  rw [List.map_map]
  have hcomp : ((fun t : MemoryItem × ℚ × ℚ => t.1.id) ∘
      (fun item : MemoryItem => (item, simF q item.embedding,
        combinedScore pw (simF q item.embedding) item))) =
      fun item : MemoryItem => item.id := rfl
  rw [hcomp]
  exact ((List.filter_sublist _).map _).nodup (loadedRows_ids_nodup hnd)

theorem combinedScore_one (s : ℚ) (item : MemoryItem) :
    combinedScore 1 s item = item.priority := by
  unfold combinedScore; ring

theorem searchInner_fst (store : List MemoryItem) (q : List ℚ) (topK : ℕ)
    (threshold : ℚ) (ns : String) (pw : ℚ) (simF : List ℚ → List ℚ → ℚ) :
    (searchInner store q topK threshold ns pw simF).1 =
      ((sortByLe scoredGe (searchScored store q threshold ns pw simF)).take
        topK).map (fun t => (t.1, t.2.1)) := rfl

theorem searchInner_snd (store : List MemoryItem) (q : List ℚ) (topK : ℕ)
    (threshold : ℚ) (ns : String) (pw : ℚ) (simF : List ℚ → List ℚ → ℚ) :
    (searchInner store q topK threshold ns pw simF).2 =
      (searchInner store q topK threshold ns pw simF).1.foldl (fun st t =>
        st.map (fun r =>
          if r.id = t.1.id ∧ r.nspace = t.1.nspace then
            { r with accessCount := r.accessCount + 1 }
          else r)) store := rfl

theorem bumpFold_eq (store : List MemoryItem) (items : List (MemoryItem × ℚ)) :
    items.foldl (fun st t =>
      st.map (fun r =>
        if r.id = t.1.id ∧ r.nspace = t.1.nspace then
          { r with accessCount := r.accessCount + 1 } else r)) store =
    store.map (fun r => items.foldl (fun r t =>
      if r.id = t.1.id ∧ r.nspace = t.1.nspace then
        { r with accessCount := r.accessCount + 1 } else r) r) :=
  foldl_map_comm _ items store

/-- Claim C3: for every vector search over a namespace, a loaded row is
returned only if its similarity to the query embedding clears the threshold
(with its recorded similarity); results are sorted in descending
combined-score order, where combined = similarity*(1-priority_weight) +
priority*priority_weight; exactly min top_k (number of threshold-clearing
loaded rows) results are returned, and every non-returned threshold-clearing
row scores no higher than every returned one; access_count is incremented by
1 for exactly the returned rows; and with priority_weight = 1 the results
are ranked in descending stored-priority order regardless of similarity. -/
theorem C3_search_ranking (store : List MemoryItem) (q : List ℚ)
    (topK : ℕ) (threshold : ℚ) (ns : String) (pw : ℚ)
    (simF : List ℚ → List ℚ → ℚ)
    (hnd : (store.map (fun r => r.id)).Nodup) :
    (∀ p ∈ (searchInner store q topK threshold ns pw simF).1,
      p.1 ∈ loadedRows store ns ∧ p.2 = simF q p.1.embedding ∧
        threshold ≤ p.2) ∧
    ((searchInner store q topK threshold ns pw simF).1.map
      (fun p => combinedScore pw p.2 p.1)).Pairwise (fun a b => b ≤ a) ∧
    (searchInner store q topK threshold ns pw simF).1.length =
      min topK (searchScored store q threshold ns pw simF).length ∧
    (∀ s ∈ searchScored store q threshold ns pw simF,
      s.1.id ∉ (searchInner store q topK threshold ns pw simF).1.map
        (fun p => p.1.id) →
      ∀ p ∈ (searchInner store q topK threshold ns pw simF).1,
        combinedScore pw s.2.1 s.1 ≤ combinedScore pw p.2 p.1) ∧
    (searchInner store q topK threshold ns pw simF).2 =
      store.map (fun r =>
        if r.id ∈ (searchInner store q topK threshold ns pw simF).1.map
            (fun p => p.1.id)
        then { r with accessCount := r.accessCount + 1 } else r) ∧
    (pw = 1 →
      ((searchInner store q topK threshold ns pw simF).1.map
        (fun p => p.1.priority)).Pairwise (fun a b => b ≤ a)) := by
  have hperm := sortByLe_perm scoredGe (searchScored store q threshold ns pw simF)
  have hpair := sortByLe_pairwise scoredGe scoredGe_total scoredGe_trans
    (searchScored store q threshold ns pw simF)
  have hres := searchInner_fst store q topK threshold ns pw simF
  refine ⟨?_, ?_, ?_, ?_, ?_, ?_⟩
  · intro p hp
    rw [hres] at hp
    rcases List.mem_map.mp hp with ⟨t, ht, rfl⟩
    obtain ⟨h1, h2, h3, h4⟩ := searchScored_shape store q threshold ns pw simF t
      (hperm.subset (List.mem_of_mem_take ht))
    exact ⟨h3, h1, h4⟩
  · rw [hres, List.map_map]
    refine List.pairwise_map.mpr (pairwise_imp_mem ?_
      (List.Pairwise.sublist (List.take_sublist topK _) hpair))
    intro a ha b hb hab
    have hA := searchScored_shape store q threshold ns pw simF a
      (hperm.subset (List.mem_of_mem_take ha))
    have hB := searchScored_shape store q threshold ns pw simF b
      (hperm.subset (List.mem_of_mem_take hb))
    unfold scoredGe at hab
    rw [decide_eq_true_eq] at hab
    show combinedScore pw b.2.1 b.1 ≤ combinedScore pw a.2.1 a.1
    rw [← hA.2.1, ← hB.2.1]
    exact hab
  · rw [hres, List.length_map, List.length_take, hperm.length_eq]
  · intro s hs hnot p hp
    have hsr : s ∈ sortByLe scoredGe (searchScored store q threshold ns pw simF) :=
      hperm.mem_iff.mpr hs
    rw [← List.take_append_drop topK
      (sortByLe scoredGe (searchScored store q threshold ns pw simF))] at hsr
    rcases List.mem_append.mp hsr with hstake | hsdrop
    · exact absurd (by
        rw [hres, List.map_map]
        exact List.mem_map.mpr ⟨s, hstake, rfl⟩) hnot
    · rw [hres] at hp
      rcases List.mem_map.mp hp with ⟨t, httake, rfl⟩
      have hcross := (List.pairwise_append.mp (by
        rw [List.take_append_drop]
        exact hpair)).2.2 t httake s hsdrop
      unfold scoredGe at hcross
      rw [decide_eq_true_eq] at hcross
      have hT := searchScored_shape store q threshold ns pw simF t
        (hperm.subset (List.mem_of_mem_take httake))
      have hS := searchScored_shape store q threshold ns pw simF s hs
      show combinedScore pw s.2.1 s.1 ≤ combinedScore pw t.2.1 t.1
      rw [← hT.2.1, ← hS.2.1]
      exact hcross
  · rw [searchInner_snd store q topK threshold ns pw simF, hres, bumpFold_eq]
    refine List.map_congr_left ?_
    intro r hr
    refine bumpSteps_eq store hnd _ ?_ ?_ r hr
    · intro t ht
      rcases List.mem_map.mp ht with ⟨u, hu, rfl⟩
      exact (loadedRows_subset ((searchScored_shape store q threshold ns pw simF u
        (hperm.subset (List.mem_of_mem_take hu))).2.2.1)).1
    · rw [List.map_map]
      have hc : ((fun t : MemoryItem × ℚ => t.1.id) ∘
          (fun t : MemoryItem × ℚ × ℚ => (t.1, t.2.1))) =
          fun u : MemoryItem × ℚ × ℚ => u.1.id := rfl
      rw [hc]
      exact ((List.take_sublist _ _).map _).nodup
        ((hperm.map _).nodup_iff.mpr (searchScored_ids_nodup q threshold pw simF hnd))
  · intro hpw
    subst hpw
    rw [hres, List.map_map]
    refine List.pairwise_map.mpr (pairwise_imp_mem ?_
      (List.Pairwise.sublist (List.take_sublist topK _) hpair))
    intro a ha b hb hab
    have hA := searchScored_shape store q threshold ns 1 simF a
      (hperm.subset (List.mem_of_mem_take ha))
    have hB := searchScored_shape store q threshold ns 1 simF b
      (hperm.subset (List.mem_of_mem_take hb))
    unfold scoredGe at hab
    rw [decide_eq_true_eq] at hab
    show b.1.priority ≤ a.1.priority
    have ha2 : a.2.2 = a.1.priority := by rw [hA.2.1, combinedScore_one]
    have hb2 : b.2.2 = b.1.priority := by rw [hB.2.1, combinedScore_one]
    rw [← ha2, ← hb2]
    exact hab

/-- A concrete row for exercising the search path. -/
def c3Row (i : String) (p : ℚ) (u : ℕ) : MemoryItem :=
  { id := i, content := [], embedding := [1], metadata := [],
    createdAt := 0, updatedAt := u, accessCount := 0, priority := p,
    nspace := "s" }

/-- Three rows with identical embeddings and priorities 0.5, 0.1, 0.9. -/
def c3Store : List MemoryItem :=
  [c3Row "mid" (1/2) 1, c3Row "low" (1/10) 2, c3Row "high" (9/10) 3]

/-- Witness for C3 at a concrete store: ids are distinct, and with
priority_weight = 1 and identical embeddings the results come back in
descending stored-priority order (high, mid, low). -/
theorem C3_search_ranking_witness :
    ((c3Store.map (fun r => r.id)).Nodup) ∧
    (((searchInner c3Store [1] 3 0 "s" 1
      (fun a b => if a = b then 1 else 0)).1.map
      (fun p => p.1.priority)).Pairwise (fun a b => b ≤ a)) ∧
    (searchInner c3Store [1] 3 0 "s" 1
      (fun a b => if a = b then 1 else 0)).1.map
      (fun p => p.1.id) = ["high", "mid", "low"] :=
  ⟨by decide,
   (C3_search_ranking c3Store [1] 3 0 "s" 1
     (fun a b => if a = b then 1 else 0) (by decide)).2.2.2.2.2 rfl,
   by with_unfolding_all rfl⟩
